import Mathlib

/-!
A verification development for the `quadtree.py` spatial index.

The embedding models the Python source shallowly:

* `float` coordinates and distances become exact rationals (`ℚ`); the one
  place the source compares against `float('inf')` is modelled with
  `WithTop ℚ`.  The final `math.sqrt` in `Quadtree.find_nearest` is not
  representable in `ℚ`; all statements compare *squared* distances, which is
  equivalent because `sqrt` is strictly monotone on nonnegative reals.
* the mutable `QuadtreeNode` objects become an inductive tree; the Python
  `divided` flag together with the four optional children corresponds to the
  choice of constructor (`undivided` = leaf with absent children,
  `divided` = children present).  Mutating methods become functions that
  return the updated tree.
* `QuadtreeNode.insert` recurses through freshly created children, so its
  recursion is not structural; it is modelled with an explicit fuel
  parameter.  `none` means the recursion did not finish within the given
  depth budget; the source has no corresponding value, so a run that returns
  `none` for every fuel models a Python run that never terminates.
-/

attribute [local semireducible] Rat.add Rat.mul Rat.sub Rat.inv

/-- Embeds the Python `Point` class: two coordinates and an optional label. -/
structure Point where
  x : ℚ
  y : ℚ
  label : Option String
deriving DecidableEq

/-- Embeds the Python `Rectangle` class: origin plus width and height.
The represented region is the half-open box `[x, x+width) × [y, y+height)`.
The Python constructor performs no validation, so neither does this one. -/
structure Rectangle where
  x : ℚ
  y : ℚ
  width : ℚ
  height : ℚ
deriving DecidableEq

namespace Rectangle

/-- Embeds `Rectangle.distance_sq_to_point`:
`dx = max(0, self.x - point.x, point.x - (self.x + self.width))`,
`dy` analogously, result `dx*dx + dy*dy`. -/
def distance_sq_to_point (r : Rectangle) (p : Point) : ℚ :=
  let dx := max 0 (max (r.x - p.x) (p.x - (r.x + r.width)))
  let dy := max 0 (max (r.y - p.y) (p.y - (r.y + r.height)))
  dx * dx + dy * dy

/-- Embeds `Rectangle.contains`: the half-open interval test
`self.x <= point.x < self.x + self.width and self.y <= point.y < self.y + self.height`. -/
def contains (r : Rectangle) (p : Point) : Bool :=
  decide (r.x ≤ p.x ∧ p.x < r.x + r.width ∧ r.y ≤ p.y ∧ p.y < r.y + r.height)

/-- The four child boundaries created by `QuadtreeNode.subdivide`, in source
order `(northwest, northeast, southwest, southeast)`:
`w = width/2`, `h = height/2`, NW at the parent origin, NE shifted by `w`,
SW shifted by `h`, SE shifted by both. -/
def subdivideBounds (r : Rectangle) : Rectangle × Rectangle × Rectangle × Rectangle :=
  let w := r.width / 2
  let h := r.height / 2
  (⟨r.x, r.y, w, h⟩, ⟨r.x + w, r.y, w, h⟩, ⟨r.x, r.y + h, w, h⟩, ⟨r.x + w, r.y + h, w, h⟩)

end Rectangle

/-- The squared Euclidean distance `(p.x - q.x)**2 + (p.y - q.y)**2` computed
inline by `query`, `_find_nearest` and `find_closest_brute_force`. -/
def distSq (p q : Point) : ℚ :=
  (p.x - q.x) * (p.x - q.x) + (p.y - q.y) * (p.y - q.y)

theorem distSq_nonneg (p q : Point) : 0 ≤ distSq p q := by
  have h1 : 0 ≤ (p.x - q.x) * (p.x - q.x) := mul_self_nonneg _
  have h2 : 0 ≤ (p.y - q.y) * (p.y - q.y) := mul_self_nonneg _
  unfold distSq; linarith

namespace Rectangle

theorem contains_iff (r : Rectangle) (p : Point) :
    r.contains p = true ↔
      r.x ≤ p.x ∧ p.x < r.x + r.width ∧ r.y ≤ p.y ∧ p.y < r.y + r.height := by
  simp [contains]

/-- Admissibility of the pruning bound: for any point `p` inside the
rectangle, `distance_sq_to_point q` never exceeds the squared distance
from `q` to `p`. -/
theorem distance_sq_le_distSq (r : Rectangle) (q p : Point)
    (hp : r.contains p = true) : r.distance_sq_to_point q ≤ distSq p q := by
  rw [contains_iff] at hp
  obtain ⟨hx1, hx2, hy1, hy2⟩ := hp
  unfold distance_sq_to_point distSq
  have hdx : max 0 (max (r.x - q.x) (q.x - (r.x + r.width))) * max 0 (max (r.x - q.x) (q.x - (r.x + r.width))) ≤ (p.x - q.x) * (p.x - q.x) := by
    rcases le_total (max (r.x - q.x) (q.x - (r.x + r.width))) 0 with h | h
    · rw [max_eq_left h]
      simpa using mul_self_nonneg (p.x - q.x)
    · rw [max_eq_right h]
      rcases max_cases (r.x - q.x) (q.x - (r.x + r.width)) with ⟨heq, hge⟩ | ⟨heq, hge⟩ <;> rw [heq] at h ⊢ <;> nlinarith
  have hdy : max 0 (max (r.y - q.y) (q.y - (r.y + r.height))) * max 0 (max (r.y - q.y) (q.y - (r.y + r.height))) ≤ (p.y - q.y) * (p.y - q.y) := by
    rcases le_total (max (r.y - q.y) (q.y - (r.y + r.height))) 0 with h | h
    · rw [max_eq_left h]
      simpa using mul_self_nonneg (p.y - q.y)
    · rw [max_eq_right h]
      rcases max_cases (r.y - q.y) (q.y - (r.y + r.height)) with ⟨heq, hge⟩ | ⟨heq, hge⟩ <;> rw [heq] at h ⊢ <;> nlinarith
  simpa using add_le_add hdx hdy

/-- The pruning bound vanishes for query points inside the rectangle. -/
theorem distance_sq_eq_zero_of_contains (r : Rectangle) (q : Point)
    (hq : r.contains q = true) : r.distance_sq_to_point q = 0 := by
  rw [contains_iff] at hq
  obtain ⟨hx1, hx2, hy1, hy2⟩ := hq
  unfold distance_sq_to_point
  have hdx : max 0 (max (r.x - q.x) (q.x - (r.x + r.width))) = 0 :=
    max_eq_left (max_le (by linarith) (by linarith))
  have hdy : max 0 (max (r.y - q.y) (q.y - (r.y + r.height))) = 0 :=
    max_eq_left (max_le (by linarith) (by linarith))
  simp only [hdx, hdy]
  ring

end Rectangle

/-- Embeds the Python `QuadtreeNode` class.  A Python node always stores
`boundary`, `capacity` and `points`; the `divided` flag and the four child
attributes are represented by the choice of constructor: `undivided` is a
node with `divided = False` and absent children, `divided` is a node whose
children are present (source order: northwest, northeast, southwest,
southeast).  The Python code keeps the `points` attribute on divided nodes
(cleared to `[]` by `insert` right after subdividing), so the `divided`
constructor keeps a points field as well. -/
inductive QuadtreeNode : Type where
  | undivided (boundary : Rectangle) (capacity : ℕ) (points : List Point) : QuadtreeNode
  | divided (boundary : Rectangle) (capacity : ℕ) (points : List Point)
      (northwest northeast southwest southeast : QuadtreeNode) : QuadtreeNode
deriving DecidableEq

namespace QuadtreeNode

/-- The `boundary` attribute. -/
def boundary : QuadtreeNode → Rectangle
  | undivided b _ _ => b
  | divided b _ _ _ _ _ _ => b

/-- The `capacity` attribute. -/
def capacity : QuadtreeNode → ℕ
  | undivided _ c _ => c
  | divided _ c _ _ _ _ _ => c

/-- The `points` attribute (the points resident at this node only). -/
def points : QuadtreeNode → List Point
  | undivided _ _ pts => pts
  | divided _ _ pts _ _ _ _ => pts

/-- Embeds `QuadtreeNode.__init__`: a fresh node with no points and no
children (`divided = False`). -/
def make (b : Rectangle) (c : ℕ) : QuadtreeNode :=
  undivided b c []

/-- Embeds `QuadtreeNode.subdivide`: creates the four children with the
quartered boundaries and sets `divided = True`; the `points` attribute is
untouched by `subdivide` itself. -/
def subdivide (n : QuadtreeNode) : QuadtreeNode :=
  match n.boundary.subdivideBounds with
  | (bnw, bne, bsw, bse) =>
      divided n.boundary n.capacity n.points
        (undivided bnw n.capacity []) (undivided bne n.capacity [])
        (undivided bsw n.capacity []) (undivided bse n.capacity [])

/-- Embeds `QuadtreeNode._insert_to_children`, parameterised by the insert
function `ins` used on each child (in the fuelled `insert` below, `ins` is
`insert` at the remaining fuel).  The Python method is
`nw.insert(p) or ne.insert(p) or sw.insert(p) or se.insert(p)`:
short-circuiting `or`, each call possibly mutating the corresponding child;
here the updated children are threaded through explicitly.  `none`
propagates fuel exhaustion of a recursive call. -/
def insertToChildrenF (ins : QuadtreeNode → Point → Option (QuadtreeNode × Bool))
    (nw ne sw se : QuadtreeNode) (p : Point) :
    Option (QuadtreeNode × QuadtreeNode × QuadtreeNode × QuadtreeNode × Bool) :=
  match ins nw p with
  | none => none
  | some (nw', true) => some (nw', ne, sw, se, true)
  | some (nw', false) =>
    match ins ne p with
    | none => none
    | some (ne', true) => some (nw', ne', sw, se, true)
    | some (ne', false) =>
      match ins sw p with
      | none => none
      | some (sw', true) => some (nw', ne', sw', se, true)
      | some (sw', false) =>
        match ins se p with
        | none => none
        | some (se', r) => some (nw', ne', sw', se', r)

/-- Embeds the redistribution loop in `QuadtreeNode.insert`:
`for p in self.points: self._insert_to_children(p)` (the boolean result of
each redistribution call is discarded by the source). -/
def redistributeF (ins : QuadtreeNode → Point → Option (QuadtreeNode × Bool))
    (nw ne sw se : QuadtreeNode) :
    List Point → Option (QuadtreeNode × QuadtreeNode × QuadtreeNode × QuadtreeNode)
  | [] => some (nw, ne, sw, se)
  | p :: rest =>
    match insertToChildrenF ins nw ne sw se p with
    | none => none
    | some (nw', ne', sw', se', _) => redistributeF ins nw' ne' sw' se' rest

/-- One unfolding of `QuadtreeNode.insert`, with `ins` standing for the
recursive calls:
1. if the boundary does not contain the point, return `False` (no mutation);
2. if the node is an undivided leaf with spare capacity, append the point;
3. otherwise subdivide first if still undivided (creating the four quarter
   children, redistributing the resident points into them and clearing the
   resident list), then delegate the new point to the children. -/
def insertStep (ins : QuadtreeNode → Point → Option (QuadtreeNode × Bool))
    (n : QuadtreeNode) (p : Point) : Option (QuadtreeNode × Bool) :=
  if !(n.boundary.contains p) then some (n, false)
  else
    match n with
    | undivided b c pts =>
      if pts.length < c then some (undivided b c (pts ++ [p]), true)
      else
        match b.subdivideBounds with
        | (bnw, bne, bsw, bse) =>
          match redistributeF ins (undivided bnw c []) (undivided bne c [])
              (undivided bsw c []) (undivided bse c []) pts with
          | none => none
          | some (nw1, ne1, sw1, se1) =>
            match insertToChildrenF ins nw1 ne1 sw1 se1 p with
            | none => none
            | some (nw2, ne2, sw2, se2, r) => some (divided b c [] nw2 ne2 sw2 se2, r)
    | divided b c pts nw ne sw se =>
      match insertToChildrenF ins nw ne sw se p with
      | none => none
      | some (nw', ne', sw', se', r) => some (divided b c pts nw' ne' sw' se', r)

/-- Embeds `QuadtreeNode.insert`.  The Python method recurses through
freshly created children, so the recursion is not structural on the tree;
`fuel` bounds the recursion depth.  `none` means the call did not finish
within `fuel` nested calls — a run of the source that never terminates is
modelled by a tree and point for which every fuel returns `none`. -/
def insert (fuel : ℕ) : QuadtreeNode → Point → Option (QuadtreeNode × Bool) :=
  @Nat.rec (fun _ => QuadtreeNode → Point → Option (QuadtreeNode × Bool))
    (fun _ _ => none) (fun _ ins => insertStep ins) fuel

theorem insert_zero (n : QuadtreeNode) (p : Point) : insert 0 n p = none := rfl

theorem insert_succ (fuel : ℕ) (n : QuadtreeNode) (p : Point) :
    insert (fuel + 1) n p = insertStep (insert fuel) n p := rfl

/-- All points stored transitively under a node, resident points first,
children in source order. -/
def toList : QuadtreeNode → List Point
  | undivided _ _ pts => pts
  | divided _ _ pts nw ne sw se =>
      pts ++ (nw.toList ++ (ne.toList ++ (sw.toList ++ se.toList)))

/-- The insertion loop used by the surrounding script and by
`test_quadtree.py`: insert the points of the list one after the other,
ignoring the boolean results. -/
def buildList (fuel : ℕ) : QuadtreeNode → List Point → Option QuadtreeNode
  | n, [] => some n
  | n, p :: ps =>
    match insert fuel n p with
    | none => none
    | some (n', _) => buildList fuel n' ps

end QuadtreeNode

/-- Embeds the mutable search accumulator
`best_found = {'dist_sq': float('inf'), 'point': None}`.  The float
infinity becomes `⊤ : WithTop ℚ`. -/
structure BestFound where
  dist_sq : WithTop ℚ
  point : Option Point
deriving DecidableEq

/-- The fresh accumulator built by `Quadtree.find_nearest` and by the
demo script before calling `query`. -/
def initBest : BestFound :=
  ⟨⊤, none⟩

/-- A stable insertion step: `x` is placed before the first element `y`
with `le x y`, so elements with equal keys keep their original order. -/
def insertSorted (le : α → α → Bool) (x : α) : List α → List α
  | [] => [x]
  | y :: ys => if le x y then x :: y :: ys else y :: insertSorted le x ys

/-- Stable ascending sort; extensionally the behaviour of Python's stable
`list.sort`, which is all the source relies on. -/
def sortPairs (le : α → α → Bool) : List α → List α
  | [] => []
  | x :: xs => insertSorted le x (sortPairs le xs)

/-- Embeds the local scan shared by `query` and `_find_nearest`:
`for p in self.points:` compute the squared distance and update the
accumulator on a strict improvement. -/
def scanPoints (q : Point) (pts : List Point) (acc : BestFound) : BestFound :=
  pts.foldl
    (fun a p => if ((distSq p q : ℚ) : WithTop ℚ) < a.dist_sq then ⟨distSq p q, some p⟩ else a)
    acc

namespace QuadtreeNode

/-- Embeds `QuadtreeNode.query` (variant A): prune when the boundary's
squared distance to the query exceeds the accumulator's best, scan the
resident points, then recurse into the children sorted by ascending
`boundary.distance_sq_to_point(point)`.  The Python code sorts the list
`[nw, ne, sw, se]` of child references; here the sorted list carries the
index of each child (0 = northwest, 1 = northeast, 2 = southwest,
3 = southeast) next to its sort key, and the fold dispatches on the index. -/
def query : QuadtreeNode → Point → BestFound → BestFound
  | undivided b _ pts, p, best_found =>
    if ((b.distance_sq_to_point p : ℚ) : WithTop ℚ) > best_found.dist_sq then best_found
    else scanPoints p pts best_found
  | divided b _ pts nw ne sw se, p, best_found =>
    if ((b.distance_sq_to_point p : ℚ) : WithTop ℚ) > best_found.dist_sq then best_found
    else
      let acc1 := scanPoints p pts best_found
      let children := sortPairs (fun u v => decide (u.2 ≤ v.2))
        [((0 : ℕ), nw.boundary.distance_sq_to_point p),
         (1, ne.boundary.distance_sq_to_point p),
         (2, sw.boundary.distance_sq_to_point p),
         (3, se.boundary.distance_sq_to_point p)]
      children.foldl
        (fun a child =>
          match child.1 with
          | 0 => nw.query p a
          | 1 => ne.query p a
          | 2 => sw.query p a
          | _ => se.query p a)
        acc1

/-- Embeds `QuadtreeNode._find_nearest` (variant B): identical pruning and
local scan, but the children are sorted by the key
`not child.boundary.contains(query_point)` (so the containing child comes
first; Python compares booleans as `False < True`, modelled by the order on
`Bool`).  Indices as in `query`. -/
def find_nearest (n : QuadtreeNode) (query_point : Point) (best_found : BestFound) : BestFound :=
  match n, query_point, best_found with
  | undivided b _ pts, q, acc =>
    if ((b.distance_sq_to_point q : ℚ) : WithTop ℚ) > acc.dist_sq then acc
    else scanPoints q pts acc
  | divided b _ pts nw ne sw se, q, acc =>
    if ((b.distance_sq_to_point q : ℚ) : WithTop ℚ) > acc.dist_sq then acc
    else
      let acc1 := scanPoints q pts acc
      let children := sortPairs (fun u v => decide (u.2 ≤ v.2))
        [((0 : ℕ), !(nw.boundary.contains q)),
         (1, !(ne.boundary.contains q)),
         (2, !(sw.boundary.contains q)),
         (3, !(se.boundary.contains q))]
      children.foldl
        (fun a child =>
          match child.1 with
          | 0 => nw.find_nearest q a
          | 1 => ne.find_nearest q a
          | 2 => sw.find_nearest q a
          | _ => se.find_nearest q a)
        acc1

end QuadtreeNode

/-- Embeds the Python `Quadtree` handle: it stores the boundary and owns the
root node (constructed by `Quadtree.__init__` via `QuadtreeNode(boundary,
capacity)`). -/
structure Quadtree where
  boundary : Rectangle
  root : QuadtreeNode
deriving DecidableEq

namespace Quadtree

/-- Embeds `Quadtree.__init__(boundary, capacity=4)` (the Python parameter
defaults to 4): store the boundary and build the root node.  No validation
of the boundary or capacity is performed by the source. -/
def init (boundary : Rectangle) (capacity : ℕ) : Quadtree :=
  ⟨boundary, QuadtreeNode.make boundary capacity⟩

/-- Embeds `Quadtree.insert`: delegate to the root. -/
def insert (fuel : ℕ) (t : Quadtree) (p : Point) : Option (Quadtree × Bool) :=
  (QuadtreeNode.insert fuel t.root p).map (fun x => (⟨t.boundary, x.1⟩, x.2))

/-- Embeds `Quadtree.query`: delegate to the root. -/
def query (t : Quadtree) (p : Point) (best_found : BestFound) : BestFound :=
  t.root.query p best_found

/-- Embeds `Quadtree.find_nearest`: run `_find_nearest` from a fresh
accumulator and return the best point together with its best squared
distance.  The source returns `math.sqrt(best_found['dist_sq'])`; the
square root of a rational is not rational, so the squared distance is
returned instead (all comparison statements are squared accordingly). -/
def find_nearest (t : Quadtree) (query_point : Point) : Option Point × WithTop ℚ :=
  let best_found := initBest
  let r := t.root.find_nearest query_point best_found
  (r.point, r.dist_sq)

end Quadtree

/-- Embeds `find_closest_brute_force`: the linear `O(N)` oracle scan.
Starts from `best_p = None`, `min_dist_sq = float('inf')` and updates on a
strict improvement, returning `(best_p, min_dist_sq)` (the *squared*
minimum, as in the source). -/
def find_closest_brute_force (query_point : Point) (all_points : List Point) :
    Option Point × WithTop ℚ :=
  all_points.foldl
    (fun best p =>
      if ((distSq p query_point : ℚ) : WithTop ℚ) < best.2 then (some p, distSq p query_point)
      else best)
    (none, ⊤)

namespace QuadtreeNode

/-- The leaf/internal discipline of the spec: an undivided node holds at
most `capacity` resident points; a divided node's resident list is empty.
Holds recursively at every node. -/
def CapInv : QuadtreeNode → Prop
  | undivided _ c pts => pts.length ≤ c
  | divided _ _ pts nw ne sw se => pts = [] ∧ CapInv nw ∧ CapInv ne ∧ CapInv sw ∧ CapInv se

/-- Geometric containment: every point stored transitively under a node
lies inside that node's boundary.  Holds recursively at every node. -/
def PtsInv : QuadtreeNode → Prop
  | undivided b _ pts => ∀ p ∈ pts, b.contains p = true
  | divided b _ pts nw ne sw se =>
      (∀ p ∈ pts ++ (nw.toList ++ (ne.toList ++ (sw.toList ++ se.toList))),
        b.contains p = true) ∧
      PtsInv nw ∧ PtsInv ne ∧ PtsInv sw ∧ PtsInv se

/-- Geometric well-formedness: the children of every divided node carry
exactly the quartered boundaries of their parent. -/
def WFGeom : QuadtreeNode → Prop
  | undivided _ _ _ => True
  | divided b _ _ nw ne sw se =>
      (nw.boundary, ne.boundary, sw.boundary, se.boundary) = b.subdivideBounds ∧
      WFGeom nw ∧ WFGeom ne ∧ WFGeom sw ∧ WFGeom se

theorem PtsInv.toList_contains {n : QuadtreeNode} (h : PtsInv n) :
    ∀ p ∈ n.toList, n.boundary.contains p = true := by
  cases n with
  | undivided b c pts => exact h
  | divided b c pts nw ne sw se => exact h.1

/-- Rejected insertions touch nothing: if the boundary does not contain the
point, any terminating `insert` returns the tree unchanged and `false`. -/
theorem insert_not_contains {fuel : ℕ} {n : QuadtreeNode} {p : Point} {n' : QuadtreeNode}
    {r : Bool} (h : insert fuel n p = some (n', r))
    (hc : n.boundary.contains p = false) : n' = n ∧ r = false := by
  cases fuel with
  | zero => exact absurd h (by simp [insert_zero])
  | succ fuel =>
    rw [insert_succ] at h
    unfold insertStep at h
    rw [hc] at h
    simp at h
    exact ⟨h.1.symm, h.2⟩

/-- Generic preservation of a per-node predicate through
`_insert_to_children`. -/
theorem insertToChildrenF_pres {P : QuadtreeNode → Prop}
    {ins : QuadtreeNode → Point → Option (QuadtreeNode × Bool)}
    (hins : ∀ m p m' r, ins m p = some (m', r) → P m → P m')
    {nw ne sw se nw' ne' sw' se' : QuadtreeNode} {p : Point} {r : Bool}
    (h : insertToChildrenF ins nw ne sw se p = some (nw', ne', sw', se', r))
    (h1 : P nw) (h2 : P ne) (h3 : P sw) (h4 : P se) :
    P nw' ∧ P ne' ∧ P sw' ∧ P se' := by
  unfold insertToChildrenF at h
  cases hnw : ins nw p with
  | none => rw [hnw] at h; exact absurd h (by simp)
  | some v =>
    obtain ⟨nw1, r1⟩ := v
    rw [hnw] at h
    have hP1 := hins _ _ _ _ hnw h1
    cases r1 with
    | true =>
      simp at h
      obtain ⟨e1, e2, e3, e4, _⟩ := h
      subst e1; subst e2; subst e3; subst e4
      exact ⟨hP1, h2, h3, h4⟩
    | false =>
      simp only at h
      cases hne : ins ne p with
      | none => rw [hne] at h; exact absurd h (by simp)
      | some v =>
        obtain ⟨ne1, r2⟩ := v
        rw [hne] at h
        have hP2 := hins _ _ _ _ hne h2
        cases r2 with
        | true =>
          simp at h
          obtain ⟨e1, e2, e3, e4, _⟩ := h
          subst e1; subst e2; subst e3; subst e4
          exact ⟨hP1, hP2, h3, h4⟩
        | false =>
          simp only at h
          cases hsw : ins sw p with
          | none => rw [hsw] at h; exact absurd h (by simp)
          | some v =>
            obtain ⟨sw1, r3⟩ := v
            rw [hsw] at h
            have hP3 := hins _ _ _ _ hsw h3
            cases r3 with
            | true =>
              simp at h
              obtain ⟨e1, e2, e3, e4, _⟩ := h
              subst e1; subst e2; subst e3; subst e4
              exact ⟨hP1, hP2, hP3, h4⟩
            | false =>
              simp only at h
              cases hse : ins se p with
              | none => rw [hse] at h; exact absurd h (by simp)
              | some v =>
                obtain ⟨se1, r4⟩ := v
                rw [hse] at h
                have hP4 := hins _ _ _ _ hse h4
                simp at h
                obtain ⟨e1, e2, e3, e4, _⟩ := h
                subst e1; subst e2; subst e3; subst e4
                exact ⟨hP1, hP2, hP3, hP4⟩

/-- Generic preservation of a per-node predicate through the
redistribution loop. -/
theorem redistributeF_pres {P : QuadtreeNode → Prop}
    {ins : QuadtreeNode → Point → Option (QuadtreeNode × Bool)}
    (hins : ∀ m p m' r, ins m p = some (m', r) → P m → P m') :
    ∀ (pts : List Point) {nw ne sw se nw' ne' sw' se' : QuadtreeNode},
      redistributeF ins nw ne sw se pts = some (nw', ne', sw', se') →
      P nw → P ne → P sw → P se → P nw' ∧ P ne' ∧ P sw' ∧ P se'
  | [], nw, ne, sw, se, nw', ne', sw', se', h, h1, h2, h3, h4 => by
    simp [redistributeF] at h
    obtain ⟨e1, e2, e3, e4⟩ := h
    subst e1; subst e2; subst e3; subst e4
    exact ⟨h1, h2, h3, h4⟩
  | p :: rest, nw, ne, sw, se, nw', ne', sw', se', h, h1, h2, h3, h4 => by
    rw [redistributeF] at h
    cases hitc : insertToChildrenF ins nw ne sw se p with
    | none => rw [hitc] at h; exact absurd h (by simp)
    | some v =>
      obtain ⟨nw1, ne1, sw1, se1, r1⟩ := v
      rw [hitc] at h
      obtain ⟨g1, g2, g3, g4⟩ := insertToChildrenF_pres hins hitc h1 h2 h3 h4
      exact redistributeF_pres hins rest h g1 g2 g3 g4

@[simp] theorem boundary_undivided (b : Rectangle) (c : ℕ) (pts : List Point) :
    (undivided b c pts).boundary = b := rfl

@[simp] theorem boundary_divided (b : Rectangle) (c : ℕ) (pts : List Point)
    (nw ne sw se : QuadtreeNode) : (divided b c pts nw ne sw se).boundary = b := rfl

@[simp] theorem toList_undivided (b : Rectangle) (c : ℕ) (pts : List Point) :
    (undivided b c pts).toList = pts := rfl

@[simp] theorem toList_divided (b : Rectangle) (c : ℕ) (pts : List Point)
    (nw ne sw se : QuadtreeNode) :
    (divided b c pts nw ne sw se).toList
      = pts ++ (nw.toList ++ (ne.toList ++ (sw.toList ++ se.toList))) := rfl

/-- Membership tracking through `_insert_to_children`: any point stored
under the updated children was already stored under the old children or is
the point just inserted. -/
theorem insertToChildrenF_toList
    {ins : QuadtreeNode → Point → Option (QuadtreeNode × Bool)} {p : Point}
    (hins : ∀ m m' r, ins m p = some (m', r) → ∀ x ∈ m'.toList, x ∈ m.toList ∨ x = p)
    {nw ne sw se nw' ne' sw' se' : QuadtreeNode} {r : Bool}
    (h : insertToChildrenF ins nw ne sw se p = some (nw', ne', sw', se', r)) :
    ∀ x, (x ∈ nw'.toList ∨ x ∈ ne'.toList ∨ x ∈ sw'.toList ∨ x ∈ se'.toList) →
      (x ∈ nw.toList ∨ x ∈ ne.toList ∨ x ∈ sw.toList ∨ x ∈ se.toList) ∨ x = p := by
  unfold insertToChildrenF at h
  cases hnw : ins nw p with
  | none => rw [hnw] at h; exact absurd h (by simp)
  | some v =>
    obtain ⟨nw1, r1⟩ := v
    rw [hnw] at h
    have t1 := hins _ _ _ hnw
    cases r1 with
    | true =>
      simp at h
      obtain ⟨e1, e2, e3, e4, _⟩ := h
      subst e1; subst e2; subst e3; subst e4
      rintro x (hx | hx | hx | hx)
      · rcases t1 x hx with h' | h'
        · exact Or.inl (Or.inl h')
        · exact Or.inr h'
      · exact Or.inl (Or.inr (Or.inl hx))
      · exact Or.inl (Or.inr (Or.inr (Or.inl hx)))
      · exact Or.inl (Or.inr (Or.inr (Or.inr hx)))
    | false =>
      simp only at h
      cases hne : ins ne p with
      | none => rw [hne] at h; exact absurd h (by simp)
      | some v =>
        obtain ⟨ne1, r2⟩ := v
        rw [hne] at h
        have t2 := hins _ _ _ hne
        cases r2 with
        | true =>
          simp at h
          obtain ⟨e1, e2, e3, e4, _⟩ := h
          subst e1; subst e2; subst e3; subst e4
          rintro x (hx | hx | hx | hx)
          · rcases t1 x hx with h' | h'
            · exact Or.inl (Or.inl h')
            · exact Or.inr h'
          · rcases t2 x hx with h' | h'
            · exact Or.inl (Or.inr (Or.inl h'))
            · exact Or.inr h'
          · exact Or.inl (Or.inr (Or.inr (Or.inl hx)))
          · exact Or.inl (Or.inr (Or.inr (Or.inr hx)))
        | false =>
          simp only at h
          cases hsw : ins sw p with
          | none => rw [hsw] at h; exact absurd h (by simp)
          | some v =>
            obtain ⟨sw1, r3⟩ := v
            rw [hsw] at h
            have t3 := hins _ _ _ hsw
            cases r3 with
            | true =>
              simp at h
              obtain ⟨e1, e2, e3, e4, _⟩ := h
              subst e1; subst e2; subst e3; subst e4
              rintro x (hx | hx | hx | hx)
              · rcases t1 x hx with h' | h'
                · exact Or.inl (Or.inl h')
                · exact Or.inr h'
              · rcases t2 x hx with h' | h'
                · exact Or.inl (Or.inr (Or.inl h'))
                · exact Or.inr h'
              · rcases t3 x hx with h' | h'
                · exact Or.inl (Or.inr (Or.inr (Or.inl h')))
                · exact Or.inr h'
              · exact Or.inl (Or.inr (Or.inr (Or.inr hx)))
            | false =>
              simp only at h
              cases hse : ins se p with
              | none => rw [hse] at h; exact absurd h (by simp)
              | some v =>
                obtain ⟨se1, r4⟩ := v
                rw [hse] at h
                have t4 := hins _ _ _ hse
                simp at h
                obtain ⟨e1, e2, e3, e4, _⟩ := h
                subst e1; subst e2; subst e3; subst e4
                rintro x (hx | hx | hx | hx)
                · rcases t1 x hx with h' | h'
                  · exact Or.inl (Or.inl h')
                  · exact Or.inr h'
                · rcases t2 x hx with h' | h'
                  · exact Or.inl (Or.inr (Or.inl h'))
                  · exact Or.inr h'
                · rcases t3 x hx with h' | h'
                  · exact Or.inl (Or.inr (Or.inr (Or.inl h')))
                  · exact Or.inr h'
                · rcases t4 x hx with h' | h'
                  · exact Or.inl (Or.inr (Or.inr (Or.inr h')))
                  · exact Or.inr h'

/-- Membership tracking through the redistribution loop. -/
theorem redistributeF_toList
    {ins : QuadtreeNode → Point → Option (QuadtreeNode × Bool)}
    (hins : ∀ m p m' r, ins m p = some (m', r) → ∀ x ∈ m'.toList, x ∈ m.toList ∨ x = p) :
    ∀ (pts : List Point) {nw ne sw se nw' ne' sw' se' : QuadtreeNode},
      redistributeF ins nw ne sw se pts = some (nw', ne', sw', se') →
      ∀ x, (x ∈ nw'.toList ∨ x ∈ ne'.toList ∨ x ∈ sw'.toList ∨ x ∈ se'.toList) →
        (x ∈ nw.toList ∨ x ∈ ne.toList ∨ x ∈ sw.toList ∨ x ∈ se.toList) ∨ x ∈ pts
  | [], nw, ne, sw, se, nw', ne', sw', se', h => by
    simp [redistributeF] at h
    obtain ⟨e1, e2, e3, e4⟩ := h
    subst e1; subst e2; subst e3; subst e4
    exact fun x hx => Or.inl hx
  | p :: rest, nw, ne, sw, se, nw', ne', sw', se', h => by
    rw [redistributeF] at h
    cases hitc : insertToChildrenF ins nw ne sw se p with
    | none => rw [hitc] at h; exact absurd h (by simp)
    | some v =>
      obtain ⟨nw1, ne1, sw1, se1, r1⟩ := v
      rw [hitc] at h
      intro x hx
      rcases redistributeF_toList hins rest h x hx with h' | h'
      · rcases insertToChildrenF_toList (fun m m' r => hins m p m' r) hitc x h' with h'' | h''
        · exact Or.inl h''
        · exact Or.inr (by simp [h''])
      · exact Or.inr (by simp [h'])

theorem insertStep_leaf_cnot {ins : QuadtreeNode → Point → Option (QuadtreeNode × Bool)}
    {b : Rectangle} {c : ℕ} {pts : List Point} {p : Point}
    (hc : Rectangle.contains b p = false) :
    insertStep ins (undivided b c pts) p = some (undivided b c pts, false) := by
  simp [insertStep, hc]

theorem insertStep_div_cnot {ins : QuadtreeNode → Point → Option (QuadtreeNode × Bool)}
    {b : Rectangle} {c : ℕ} {pts : List Point} {nw ne sw se : QuadtreeNode} {p : Point}
    (hc : Rectangle.contains b p = false) :
    insertStep ins (divided b c pts nw ne sw se) p = some (divided b c pts nw ne sw se, false) := by
  simp [insertStep, hc]

theorem insertStep_leaf_spare {ins : QuadtreeNode → Point → Option (QuadtreeNode × Bool)}
    {b : Rectangle} {c : ℕ} {pts : List Point} {p : Point}
    (hc : Rectangle.contains b p = true) (hlen : pts.length < c) :
    insertStep ins (undivided b c pts) p = some (undivided b c (pts ++ [p]), true) := by
  simp [insertStep, hc, hlen]

theorem insertStep_leaf_full {ins : QuadtreeNode → Point → Option (QuadtreeNode × Bool)}
    {b : Rectangle} {c : ℕ} {pts : List Point} {p : Point}
    (hc : Rectangle.contains b p = true) (hlen : ¬ pts.length < c) :
    insertStep ins (undivided b c pts) p =
      match redistributeF ins (undivided ⟨b.x, b.y, b.width / 2, b.height / 2⟩ c [])
          (undivided ⟨b.x + b.width / 2, b.y, b.width / 2, b.height / 2⟩ c [])
          (undivided ⟨b.x, b.y + b.height / 2, b.width / 2, b.height / 2⟩ c [])
          (undivided ⟨b.x + b.width / 2, b.y + b.height / 2, b.width / 2, b.height / 2⟩ c [])
          pts with
      | none => none
      | some (nw1, ne1, sw1, se1) =>
        match insertToChildrenF ins nw1 ne1 sw1 se1 p with
        | none => none
        | some (nw2, ne2, sw2, se2, r) => some (divided b c [] nw2 ne2 sw2 se2, r) := by
  simp [insertStep, Rectangle.subdivideBounds, hc, hlen]

theorem insertStep_divided {ins : QuadtreeNode → Point → Option (QuadtreeNode × Bool)}
    {b : Rectangle} {c : ℕ} {pts : List Point} {nw ne sw se : QuadtreeNode} {p : Point}
    (hc : Rectangle.contains b p = true) :
    insertStep ins (divided b c pts nw ne sw se) p =
      match insertToChildrenF ins nw ne sw se p with
      | none => none
      | some (nw', ne', sw', se', r) => some (divided b c pts nw' ne' sw' se', r) := by
  simp [insertStep, hc]

/-- Membership tracking through `insert`: insertion only ever adds the
inserted point; no stored point is removed or invented. -/
theorem insert_toList : ∀ (fuel : ℕ) {n : QuadtreeNode} {p : Point} {n' : QuadtreeNode} {r : Bool},
    insert fuel n p = some (n', r) → ∀ x ∈ n'.toList, x ∈ n.toList ∨ x = p
  | 0, n, p, n', r, h => by simp [insert_zero] at h
  | fuel + 1, n, p, n', r, h => by
    rw [insert_succ] at h
    cases n with
    | undivided b c pts =>
      cases hc : Rectangle.contains b p with
      | false =>
        rw [insertStep_leaf_cnot hc] at h
        simp at h
        obtain ⟨e, _⟩ := h; subst e
        exact fun x hx => Or.inl hx
      | true =>
        by_cases hlen : pts.length < c
        · rw [insertStep_leaf_spare hc hlen] at h
          simp at h
          obtain ⟨e, _⟩ := h; subst e
          intro x hx
          simp at hx ⊢
          exact hx
        · rw [insertStep_leaf_full hc hlen] at h
          split at h
          · exact absurd h (by simp)
          rename_i v nw1 ne1 sw1 se1 hred
          split at h
          · exact absurd h (by simp)
          rename_i v2 nw2 ne2 sw2 se2 r2 hitc
          simp at h
          obtain ⟨e, _⟩ := h; subst e
          intro x hx
          simp at hx
          rcases hx with hx | hx | hx | hx
          all_goals {
            rcases insertToChildrenF_toList (fun m m' r' hm => insert_toList fuel hm)
                hitc x (by tauto) with h' | h'
            · rcases redistributeF_toList (fun m pp m' r' hm => insert_toList fuel hm)
                  pts hred x h' with h'' | h''
              · simp at h''
              · exact Or.inl (by simpa using h'')
            · exact Or.inr h' }
    | divided b c pts nw ne sw se =>
      cases hc : Rectangle.contains b p with
      | false =>
        rw [insertStep_div_cnot hc] at h
        simp at h
        obtain ⟨e, _⟩ := h; subst e
        exact fun x hx => Or.inl hx
      | true =>
        rw [insertStep_divided hc] at h
        split at h
        · exact absurd h (by simp)
        rename_i v nw' ne' sw' se' r' hitc
        simp at h
        obtain ⟨e, _⟩ := h; subst e
        intro x hx
        simp at hx
        rcases hx with hx | hx | hx | hx | hx
        · exact Or.inl (by simp [hx])
        all_goals {
          rcases insertToChildrenF_toList (fun m m' r' hm => insert_toList fuel hm)
              hitc x (by tauto) with h' | h'
          · exact Or.inl (by simp; tauto)
          · exact Or.inr h' }

/-- `insert` preserves the leaf/internal capacity discipline. -/
theorem insert_pres_CapInv : ∀ (fuel : ℕ) {n : QuadtreeNode} {p : Point} {n' : QuadtreeNode}
    {r : Bool}, insert fuel n p = some (n', r) → CapInv n → CapInv n'
  | 0, n, p, n', r, h, _ => by simp [insert_zero] at h
  | fuel + 1, n, p, n', r, h, hI => by
    rw [insert_succ] at h
    cases n with
    | undivided b c pts =>
      cases hc : Rectangle.contains b p with
      | false =>
        rw [insertStep_leaf_cnot hc] at h
        simp at h
        obtain ⟨e, _⟩ := h; subst e
        exact hI
      | true =>
        by_cases hlen : pts.length < c
        · rw [insertStep_leaf_spare hc hlen] at h
          simp at h
          obtain ⟨e, _⟩ := h; subst e
          simp only [CapInv, List.length_append, List.length_cons, List.length_nil]
          omega
        · rw [insertStep_leaf_full hc hlen] at h
          split at h
          · exact absurd h (by simp)
          rename_i v nw1 ne1 sw1 se1 hred
          split at h
          · exact absurd h (by simp)
          rename_i v2 nw2 ne2 sw2 se2 r2 hitc
          simp at h
          obtain ⟨e, _⟩ := h; subst e
          have hfresh : ∀ (bb : Rectangle), CapInv (undivided bb c []) := by
            intro bb; simp [CapInv]
          obtain ⟨g1, g2, g3, g4⟩ :=
            redistributeF_pres (fun m pp m' r' hm hP => insert_pres_CapInv fuel hm hP) pts hred
              (hfresh _) (hfresh _) (hfresh _) (hfresh _)
          obtain ⟨k1, k2, k3, k4⟩ :=
            insertToChildrenF_pres (fun m pp m' r' hm hP => insert_pres_CapInv fuel hm hP) hitc
              g1 g2 g3 g4
          exact ⟨rfl, k1, k2, k3, k4⟩
    | divided b c pts nw ne sw se =>
      cases hc : Rectangle.contains b p with
      | false =>
        rw [insertStep_div_cnot hc] at h
        simp at h
        obtain ⟨e, _⟩ := h; subst e
        exact hI
      | true =>
        rw [insertStep_divided hc] at h
        split at h
        · exact absurd h (by simp)
        rename_i v nw' ne' sw' se' r' hitc
        simp at h
        obtain ⟨e, _⟩ := h; subst e
        obtain ⟨hpts, h1, h2, h3, h4⟩ := hI
        obtain ⟨k1, k2, k3, k4⟩ :=
          insertToChildrenF_pres (fun m pp m' r' hm hP => insert_pres_CapInv fuel hm hP) hitc
            h1 h2 h3 h4
        exact ⟨hpts, k1, k2, k3, k4⟩

/-- `insert` preserves the geometric containment invariant. -/
theorem insert_pres_PtsInv : ∀ (fuel : ℕ) {n : QuadtreeNode} {p : Point} {n' : QuadtreeNode}
    {r : Bool}, insert fuel n p = some (n', r) → PtsInv n → PtsInv n'
  | 0, n, p, n', r, h, _ => by simp [insert_zero] at h
  | fuel + 1, n, p, n', r, h, hI => by
    rw [insert_succ] at h
    cases n with
    | undivided b c pts =>
      cases hc : Rectangle.contains b p with
      | false =>
        rw [insertStep_leaf_cnot hc] at h
        simp at h
        obtain ⟨e, _⟩ := h; subst e
        exact hI
      | true =>
        by_cases hlen : pts.length < c
        · rw [insertStep_leaf_spare hc hlen] at h
          simp at h
          obtain ⟨e, _⟩ := h; subst e
          intro x hx
          rcases List.mem_append.mp hx with hx | hx
          · exact hI x hx
          · simp at hx; subst hx; exact hc
        · rw [insertStep_leaf_full hc hlen] at h
          split at h
          · exact absurd h (by simp)
          rename_i v nw1 ne1 sw1 se1 hred
          split at h
          · exact absurd h (by simp)
          rename_i v2 nw2 ne2 sw2 se2 r2 hitc
          simp at h
          obtain ⟨e, _⟩ := h; subst e
          have hfreshP : ∀ (bb : Rectangle), PtsInv (undivided bb c []) := by
            intro bb; simp [PtsInv]
          obtain ⟨g1, g2, g3, g4⟩ :=
            redistributeF_pres (fun m pp m' r' hm hP => insert_pres_PtsInv fuel hm hP) pts hred
              (hfreshP _) (hfreshP _) (hfreshP _) (hfreshP _)
          obtain ⟨k1, k2, k3, k4⟩ :=
            insertToChildrenF_pres (fun m pp m' r' hm hP => insert_pres_PtsInv fuel hm hP) hitc
              g1 g2 g3 g4
          refine ⟨?_, k1, k2, k3, k4⟩
          intro x hx
          simp at hx
          have hx' : x ∈ nw2.toList ∨ x ∈ ne2.toList ∨ x ∈ sw2.toList ∨ x ∈ se2.toList := by
            tauto
          rcases insertToChildrenF_toList (fun m m' r' hm => insert_toList fuel hm)
              hitc x hx' with h' | h'
          · rcases redistributeF_toList (fun m pp m' r' hm => insert_toList fuel hm)
                pts hred x h' with h'' | h''
            · simp at h''
            · exact hI x h''
          · subst h'; exact hc
    | divided b c pts nw ne sw se =>
      cases hc : Rectangle.contains b p with
      | false =>
        rw [insertStep_div_cnot hc] at h
        simp at h
        obtain ⟨e, _⟩ := h; subst e
        exact hI
      | true =>
        rw [insertStep_divided hc] at h
        split at h
        · exact absurd h (by simp)
        rename_i v nw' ne' sw' se' r' hitc
        simp at h
        obtain ⟨e, _⟩ := h; subst e
        obtain ⟨hall, h1, h2, h3, h4⟩ := hI
        obtain ⟨k1, k2, k3, k4⟩ :=
          insertToChildrenF_pres (fun m pp m' r' hm hP => insert_pres_PtsInv fuel hm hP) hitc
            h1 h2 h3 h4
        refine ⟨?_, k1, k2, k3, k4⟩
        intro x hx
        simp at hx
        rcases hx with hx | hx
        · exact hall x (by simp [hx])
        have hx' : x ∈ nw'.toList ∨ x ∈ ne'.toList ∨ x ∈ sw'.toList ∨ x ∈ se'.toList := by
          tauto
        rcases insertToChildrenF_toList (fun m m' r' hm => insert_toList fuel hm)
            hitc x hx' with h' | h'
        · exact hall x (by simp; tauto)
        · subst h'; exact hc

end QuadtreeNode

namespace Rectangle

/-- Cover half of the quartering property: a point inside the parent
boundary lies in at least one of the four half-open quarter boundaries. -/
theorem subdivideBounds_cover (b : Rectangle) (p : Point) (hb : b.contains p = true) :
    b.subdivideBounds.1.contains p = true ∨ b.subdivideBounds.2.1.contains p = true ∨
    b.subdivideBounds.2.2.1.contains p = true ∨ b.subdivideBounds.2.2.2.contains p = true := by
  rw [contains_iff] at hb
  obtain ⟨hx1, hx2, hy1, hy2⟩ := hb
  have hwx : b.width / 2 + b.width / 2 = b.width := by ring
  have hhy : b.height / 2 + b.height / 2 = b.height := by ring
  simp only [subdivideBounds]
  rcases lt_or_le p.x (b.x + b.width / 2) with hx | hx <;>
    rcases lt_or_le p.y (b.y + b.height / 2) with hy | hy
  · exact Or.inl (by rw [contains_iff]; exact ⟨hx1, hx, hy1, hy⟩)
  · exact Or.inr (Or.inr (Or.inl (by rw [contains_iff]; exact ⟨hx1, hx, hy, by linarith⟩)))
  · exact Or.inr (Or.inl (by rw [contains_iff]; exact ⟨hx, by linarith, hy1, hy⟩))
  · exact Or.inr (Or.inr (Or.inr (by rw [contains_iff]; exact ⟨hx, by linarith, hy, by linarith⟩)))

end Rectangle

namespace QuadtreeNode

/-- Geometric and result tracking through `_insert_to_children`: with an
insert function that preserves well-formedness and boundaries, succeeds on
contained points and rejects non-contained points without mutation, the
children stay well-formed with unchanged boundaries, and the overall result
is `True` whenever some child's boundary contains the point. -/
theorem insertToChildrenF_wf
    {ins : QuadtreeNode → Point → Option (QuadtreeNode × Bool)} {p : Point}
    (hwf : ∀ m m' r', ins m p = some (m', r') → WFGeom m →
      WFGeom m' ∧ m'.boundary = m.boundary ∧ (m.boundary.contains p = true → r' = true))
    (hnc : ∀ m m' r', ins m p = some (m', r') → m.boundary.contains p = false → m' = m)
    {nw ne sw se nw' ne' sw' se' : QuadtreeNode} {r : Bool}
    (h : insertToChildrenF ins nw ne sw se p = some (nw', ne', sw', se', r))
    (w1 : WFGeom nw) (w2 : WFGeom ne) (w3 : WFGeom sw) (w4 : WFGeom se) :
    (WFGeom nw' ∧ WFGeom ne' ∧ WFGeom sw' ∧ WFGeom se') ∧
    (nw'.boundary = nw.boundary ∧ ne'.boundary = ne.boundary ∧
     sw'.boundary = sw.boundary ∧ se'.boundary = se.boundary) ∧
    ((nw.boundary.contains p = true ∨ ne.boundary.contains p = true ∨
      sw.boundary.contains p = true ∨ se.boundary.contains p = true) → r = true) := by
  unfold insertToChildrenF at h
  cases hnw : ins nw p with
  | none => rw [hnw] at h; exact absurd h (by simp)
  | some v =>
    obtain ⟨nw1, r1⟩ := v
    rw [hnw] at h
    obtain ⟨wnw1, bnw1, rnw1⟩ := hwf _ _ _ hnw w1
    cases r1 with
    | true =>
      simp at h
      obtain ⟨e1, e2, e3, e4, e5⟩ := h
      subst e1; subst e2; subst e3; subst e4
      exact ⟨⟨wnw1, w2, w3, w4⟩, ⟨bnw1, rfl, rfl, rfl⟩, fun _ => e5⟩
    | false =>
      have hnwc : nw.boundary.contains p = false := by
        cases hq : nw.boundary.contains p with
        | false => rfl
        | true => exact absurd (rnw1 hq) (by simp)
      have enw : nw1 = nw := hnc _ _ _ hnw hnwc
      subst enw
      simp only at h
      cases hne : ins ne p with
      | none => rw [hne] at h; exact absurd h (by simp)
      | some v =>
        obtain ⟨ne1, r2⟩ := v
        rw [hne] at h
        obtain ⟨wne1, bne1, rne1⟩ := hwf _ _ _ hne w2
        cases r2 with
        | true =>
          simp at h
          obtain ⟨e1, e2, e3, e4, e5⟩ := h
          subst e1; subst e2; subst e3; subst e4
          exact ⟨⟨wnw1, wne1, w3, w4⟩, ⟨bnw1, bne1, rfl, rfl⟩, fun _ => e5⟩
        | false =>
          have hnec : ne.boundary.contains p = false := by
            cases hq : ne.boundary.contains p with
            | false => rfl
            | true => exact absurd (rne1 hq) (by simp)
          have ene : ne1 = ne := hnc _ _ _ hne hnec
          subst ene
          simp only at h
          cases hsw : ins sw p with
          | none => rw [hsw] at h; exact absurd h (by simp)
          | some v =>
            obtain ⟨sw1, r3⟩ := v
            rw [hsw] at h
            obtain ⟨wsw1, bsw1, rsw1⟩ := hwf _ _ _ hsw w3
            cases r3 with
            | true =>
              simp at h
              obtain ⟨e1, e2, e3, e4, e5⟩ := h
              subst e1; subst e2; subst e3; subst e4
              exact ⟨⟨wnw1, wne1, wsw1, w4⟩, ⟨bnw1, bne1, bsw1, rfl⟩, fun _ => e5⟩
            | false =>
              have hswc : sw.boundary.contains p = false := by
                cases hq : sw.boundary.contains p with
                | false => rfl
                | true => exact absurd (rsw1 hq) (by simp)
              have esw : sw1 = sw := hnc _ _ _ hsw hswc
              subst esw
              simp only at h
              cases hse : ins se p with
              | none => rw [hse] at h; exact absurd h (by simp)
              | some v =>
                obtain ⟨se1, r4⟩ := v
                rw [hse] at h
                obtain ⟨wse1, bse1, rse1⟩ := hwf _ _ _ hse w4
                simp at h
                obtain ⟨e1, e2, e3, e4, e5⟩ := h
                subst e1; subst e2; subst e3; subst e4
                refine ⟨⟨wnw1, wne1, wsw1, wse1⟩, ⟨bnw1, bne1, bsw1, bse1⟩, ?_⟩
                rintro (hcv | hcv | hcv | hcv)
                · rw [hnwc] at hcv; cases hcv
                · rw [hnec] at hcv; cases hcv
                · rw [hswc] at hcv; cases hcv
                · rw [← e5]; exact rse1 hcv

/-- Geometric tracking through the redistribution loop. -/
theorem redistributeF_wf
    {ins : QuadtreeNode → Point → Option (QuadtreeNode × Bool)}
    (hwf : ∀ m p m' r', ins m p = some (m', r') → WFGeom m →
      WFGeom m' ∧ m'.boundary = m.boundary ∧ (m.boundary.contains p = true → r' = true))
    (hnc : ∀ m p m' r', ins m p = some (m', r') → m.boundary.contains p = false → m' = m) :
    ∀ (pts : List Point) {nw ne sw se nw' ne' sw' se' : QuadtreeNode},
      redistributeF ins nw ne sw se pts = some (nw', ne', sw', se') →
      WFGeom nw → WFGeom ne → WFGeom sw → WFGeom se →
      (WFGeom nw' ∧ WFGeom ne' ∧ WFGeom sw' ∧ WFGeom se') ∧
      (nw'.boundary = nw.boundary ∧ ne'.boundary = ne.boundary ∧
       sw'.boundary = sw.boundary ∧ se'.boundary = se.boundary)
  | [], nw, ne, sw, se, nw', ne', sw', se', h, w1, w2, w3, w4 => by
    simp [redistributeF] at h
    obtain ⟨e1, e2, e3, e4⟩ := h
    subst e1; subst e2; subst e3; subst e4
    exact ⟨⟨w1, w2, w3, w4⟩, rfl, rfl, rfl, rfl⟩
  | p :: rest, nw, ne, sw, se, nw', ne', sw', se', h, w1, w2, w3, w4 => by
    rw [redistributeF] at h
    cases hitc : insertToChildrenF ins nw ne sw se p with
    | none => rw [hitc] at h; exact absurd h (by simp)
    | some v =>
      obtain ⟨nw1, ne1, sw1, se1, r1⟩ := v
      rw [hitc] at h
      obtain ⟨⟨g1, g2, g3, g4⟩, ⟨b1, b2, b3, b4⟩, _⟩ :=
        insertToChildrenF_wf (fun m m' r' hm wm => hwf m p m' r' hm wm)
          (fun m m' r' hm hcm => hnc m p m' r' hm hcm) hitc w1 w2 w3 w4
      obtain ⟨⟨k1, k2, k3, k4⟩, ⟨c1, c2, c3, c4⟩⟩ :=
        redistributeF_wf hwf hnc rest h g1 g2 g3 g4
      exact ⟨⟨k1, k2, k3, k4⟩, c1.trans b1, c2.trans b2, c3.trans b3, c4.trans b4⟩

/-- The contract of `insert` on geometrically well-formed trees: the tree
stays well-formed, the node's boundary is unchanged, and whenever the
boundary contains the point, a terminating insertion reports success. -/
theorem insert_wf : ∀ (fuel : ℕ) {n : QuadtreeNode} {p : Point} {n' : QuadtreeNode} {r : Bool},
    insert fuel n p = some (n', r) → WFGeom n →
    WFGeom n' ∧ n'.boundary = n.boundary ∧ (n.boundary.contains p = true → r = true)
  | 0, n, p, n', r, h, _ => by simp [insert_zero] at h
  | fuel + 1, n, p, n', r, h, hW => by
    rw [insert_succ] at h
    cases n with
    | undivided b c pts =>
      cases hc : Rectangle.contains b p with
      | false =>
        rw [insertStep_leaf_cnot hc] at h
        simp at h
        obtain ⟨e, _⟩ := h; subst e
        exact ⟨hW, rfl, fun hcc => absurd hcc (by simp [hc])⟩
      | true =>
        by_cases hlen : pts.length < c
        · rw [insertStep_leaf_spare hc hlen] at h
          simp at h
          obtain ⟨e, e2⟩ := h; subst e
          exact ⟨trivial, rfl, fun _ => e2⟩
        · rw [insertStep_leaf_full hc hlen] at h
          split at h
          · exact absurd h (by simp)
          rename_i v nw1 ne1 sw1 se1 hred
          split at h
          · exact absurd h (by simp)
          rename_i v2 nw2 ne2 sw2 se2 r2 hitc
          simp at h
          obtain ⟨e, e2⟩ := h; subst e
          have hwfins : ∀ m pp m' r', insert fuel m pp = some (m', r') → WFGeom m →
              WFGeom m' ∧ m'.boundary = m.boundary ∧ (m.boundary.contains pp = true → r' = true) :=
            fun m pp m' r' hm wm => insert_wf fuel hm wm
          have hncins : ∀ m pp m' r', insert fuel m pp = some (m', r') →
              m.boundary.contains pp = false → m' = m :=
            fun m pp m' r' hm hcm => (insert_not_contains hm hcm).1
          obtain ⟨⟨g1, g2, g3, g4⟩, ⟨c1, c2, c3, c4⟩⟩ :=
            redistributeF_wf hwfins hncins pts hred trivial trivial trivial trivial
          obtain ⟨⟨k1, k2, k3, k4⟩, ⟨d1, d2, d3, d4⟩, hr⟩ :=
            insertToChildrenF_wf (fun m m' r' hm wm => hwfins m p m' r' hm wm)
              (fun m m' r' hm hcm => hncins m p m' r' hm hcm) hitc g1 g2 g3 g4
          have hcov := Rectangle.subdivideBounds_cover b p hc
          simp only [Rectangle.subdivideBounds] at hcov
          have b1 : nw1.boundary = ⟨b.x, b.y, b.width / 2, b.height / 2⟩ := by
            rw [c1]; rfl
          have b2 : ne1.boundary = ⟨b.x + b.width / 2, b.y, b.width / 2, b.height / 2⟩ := by
            rw [c2]; rfl
          have b3 : sw1.boundary = ⟨b.x, b.y + b.height / 2, b.width / 2, b.height / 2⟩ := by
            rw [c3]; rfl
          have b4 : se1.boundary = ⟨b.x + b.width / 2, b.y + b.height / 2, b.width / 2, b.height / 2⟩ := by
            rw [c4]; rfl
          have hrt : r2 = true := by
            apply hr
            rw [b1, b2, b3, b4]
            exact hcov
          refine ⟨?_, rfl, fun _ => by rw [← e2]; exact hrt⟩
          refine ⟨?_, k1, k2, k3, k4⟩
          rw [d1, d2, d3, d4, b1, b2, b3, b4]
          rfl
    | divided b c pts nw ne sw se =>
      cases hc : Rectangle.contains b p with
      | false =>
        rw [insertStep_div_cnot hc] at h
        simp at h
        obtain ⟨e, _⟩ := h; subst e
        exact ⟨hW, rfl, fun hcc => absurd hcc (by simp [hc])⟩
      | true =>
        rw [insertStep_divided hc] at h
        split at h
        · exact absurd h (by simp)
        rename_i v nw' ne' sw' se' r' hitc
        simp at h
        obtain ⟨e, e2⟩ := h; subst e
        obtain ⟨hbnds, w1, w2, w3, w4⟩ := hW
        have hbnds' := hbnds
        simp only [Rectangle.subdivideBounds, Prod.mk.injEq] at hbnds'
        obtain ⟨hb1, hb2, hb3, hb4⟩ := hbnds'
        have hwfins : ∀ m pp m' r', insert fuel m pp = some (m', r') → WFGeom m →
            WFGeom m' ∧ m'.boundary = m.boundary ∧ (m.boundary.contains pp = true → r' = true) :=
          fun m pp m' r' hm wm => insert_wf fuel hm wm
        have hncins : ∀ m pp m' r', insert fuel m pp = some (m', r') →
            m.boundary.contains pp = false → m' = m :=
          fun m pp m' r' hm hcm => (insert_not_contains hm hcm).1
        obtain ⟨⟨k1, k2, k3, k4⟩, ⟨d1, d2, d3, d4⟩, hr⟩ :=
          insertToChildrenF_wf (fun m m' r' hm wm => hwfins m p m' r' hm wm)
            (fun m m' r' hm hcm => hncins m p m' r' hm hcm) hitc w1 w2 w3 w4
        have hcov := Rectangle.subdivideBounds_cover b p hc
        simp only [Rectangle.subdivideBounds] at hcov
        have hrt : r' = true := by
          apply hr
          rw [hb1, hb2, hb3, hb4]
          exact hcov
        refine ⟨?_, rfl, fun _ => by rw [← e2]; exact hrt⟩
        refine ⟨?_, k1, k2, k3, k4⟩
        rw [d1, d2, d3, d4]
        exact hbnds

/-- Any per-node predicate preserved by single insertions is preserved by
the insertion loop. -/
theorem buildList_pres {P : QuadtreeNode → Prop}
    (hP : ∀ (fuel : ℕ) {n p n' r}, insert fuel n p = some (n', r) → P n → P n') :
    ∀ (fuel : ℕ) (ps : List Point) {n n' : QuadtreeNode},
      buildList fuel n ps = some n' → P n → P n'
  | fuel, [], n, n', h, hn => by
    simp [buildList] at h
    subst h; exact hn
  | fuel, p :: ps, n, n', h, hn => by
    rw [buildList] at h
    cases hins : insert fuel n p with
    | none => rw [hins] at h; exact absurd h (by simp)
    | some v =>
      obtain ⟨n1, r1⟩ := v
      rw [hins] at h
      exact buildList_pres hP fuel ps h (hP fuel hins hn)

theorem buildList_CapInv {fuel : ℕ} {b : Rectangle} {c : ℕ} {ps : List Point}
    {t : QuadtreeNode} (h : buildList fuel (make b c) ps = some t) : CapInv t :=
  buildList_pres (fun fuel => insert_pres_CapInv fuel) fuel ps h (by simp [make, CapInv])

theorem buildList_PtsInv {fuel : ℕ} {b : Rectangle} {c : ℕ} {ps : List Point}
    {t : QuadtreeNode} (h : buildList fuel (make b c) ps = some t) : PtsInv t :=
  buildList_pres (fun fuel => insert_pres_PtsInv fuel) fuel ps h (by simp [make, PtsInv])

theorem buildList_WFGeom {fuel : ℕ} {b : Rectangle} {c : ℕ} {ps : List Point}
    {t : QuadtreeNode} (h : buildList fuel (make b c) ps = some t) : WFGeom t :=
  buildList_pres (fun fuel {_n _p _n2 _r} hm hP => (insert_wf fuel hm hP).1) fuel ps h trivial

/-- Non-termination of the source on coincident duplicates: a capacity-1
leaf already holding the origin point never finishes inserting a second
copy of the origin, whatever the recursion budget — each subdivision sends
both copies to the same (northwest) quarter and the situation repeats. -/
theorem insert_dup_diverges : ∀ (fuel : ℕ) (w h : ℚ), 0 < w → 0 < h →
    insert fuel (undivided ⟨0, 0, w, h⟩ 1 [⟨0, 0, none⟩]) ⟨0, 0, none⟩ = none
  | 0, w, h, hw, hh => rfl
  | fuel + 1, w, h, hw, hh => by
    have hc : Rectangle.contains ⟨0, 0, w, h⟩ ⟨0, 0, none⟩ = true := by
      rw [Rectangle.contains_iff]
      exact ⟨le_refl 0, by simpa using hw, le_refl 0, by simpa using hh⟩
    have hlen : ¬ ([(⟨0, 0, none⟩ : Point)].length < 1) := by simp
    rw [insert_succ, insertStep_leaf_full hc hlen]
    dsimp only
    simp only [zero_add]
    cases fuel with
    | zero => rfl
    | succ f =>
      have hc2 : Rectangle.contains ⟨0, 0, w / 2, h / 2⟩ ⟨0, 0, none⟩ = true := by
        rw [Rectangle.contains_iff]
        exact ⟨le_refl 0, by simpa using half_pos hw, le_refl 0, by simpa using half_pos hh⟩
      have hins0 : insert (f + 1) (undivided ⟨0, 0, w / 2, h / 2⟩ 1 []) ⟨0, 0, none⟩
          = some (undivided ⟨0, 0, w / 2, h / 2⟩ 1 [⟨0, 0, none⟩], true) := by
        rw [insert_succ, insertStep_leaf_spare hc2 (by simp)]
        rfl
      have hitc1 : insertToChildrenF (insert (f + 1))
          (undivided ⟨0, 0, w / 2, h / 2⟩ 1 [])
          (undivided ⟨w / 2, 0, w / 2, h / 2⟩ 1 [])
          (undivided ⟨0, h / 2, w / 2, h / 2⟩ 1 [])
          (undivided ⟨w / 2, h / 2, w / 2, h / 2⟩ 1 []) ⟨0, 0, none⟩
          = some (undivided ⟨0, 0, w / 2, h / 2⟩ 1 [⟨0, 0, none⟩],
              undivided ⟨w / 2, 0, w / 2, h / 2⟩ 1 [],
              undivided ⟨0, h / 2, w / 2, h / 2⟩ 1 [],
              undivided ⟨w / 2, h / 2, w / 2, h / 2⟩ 1 [], true) := by
        unfold insertToChildrenF
        rw [hins0]
      have hdiv : insert (f + 1) (undivided ⟨0, 0, w / 2, h / 2⟩ 1 [⟨0, 0, none⟩]) ⟨0, 0, none⟩
          = none := insert_dup_diverges (f + 1) (w / 2) (h / 2) (half_pos hw) (half_pos hh)
      have hitc2 : insertToChildrenF (insert (f + 1))
          (undivided ⟨0, 0, w / 2, h / 2⟩ 1 [⟨0, 0, none⟩])
          (undivided ⟨w / 2, 0, w / 2, h / 2⟩ 1 [])
          (undivided ⟨0, h / 2, w / 2, h / 2⟩ 1 [])
          (undivided ⟨w / 2, h / 2, w / 2, h / 2⟩ 1 []) ⟨0, 0, none⟩ = none := by
        unfold insertToChildrenF
        rw [hdiv]
      have hred : redistributeF (insert (f + 1))
          (undivided ⟨0, 0, w / 2, h / 2⟩ 1 [])
          (undivided ⟨w / 2, 0, w / 2, h / 2⟩ 1 [])
          (undivided ⟨0, h / 2, w / 2, h / 2⟩ 1 [])
          (undivided ⟨w / 2, h / 2, w / 2, h / 2⟩ 1 []) [⟨0, 0, none⟩]
          = some (undivided ⟨0, 0, w / 2, h / 2⟩ 1 [⟨0, 0, none⟩],
              undivided ⟨w / 2, 0, w / 2, h / 2⟩ 1 [],
              undivided ⟨0, h / 2, w / 2, h / 2⟩ 1 [],
              undivided ⟨w / 2, h / 2, w / 2, h / 2⟩ 1 []) := by
        simp only [redistributeF, hitc1]
      rw [hred]
      simp only [hitc2]

end QuadtreeNode

/-- The minimum squared distance from a query point to a list of points
(`⊤` for the empty list) — the value an exhaustive scan computes. -/
def minDistSq (q : Point) (l : List Point) : WithTop ℚ :=
  (l.map (fun p => ((distSq p q : ℚ) : WithTop ℚ))).foldr min ⊤

/-- Soundness of a search accumulator with respect to a list of candidate
points: either still in its initial state, or holding some candidate
together with that candidate's exact squared distance. -/
def AccOk (q : Point) (l : List Point) (acc : BestFound) : Prop :=
  (acc.dist_sq = ⊤ ∧ acc.point = none) ∨
    (∃ p, acc.point = some p ∧ p ∈ l ∧ acc.dist_sq = ((distSq p q : ℚ) : WithTop ℚ))

theorem AccOk_mono {q : Point} {l l' : List Point} {acc : BestFound}
    (hsub : ∀ x ∈ l, x ∈ l') (h : AccOk q l acc) : AccOk q l' acc := by
  rcases h with h | ⟨p, h1, h2, h3⟩
  · exact Or.inl h
  · exact Or.inr ⟨p, h1, hsub p h2, h3⟩

theorem AccOk_init (q : Point) (l : List Point) : AccOk q l initBest :=
  Or.inl ⟨rfl, rfl⟩

theorem minDistSq_nil (q : Point) : minDistSq q [] = ⊤ := rfl

theorem minDistSq_cons (q p : Point) (l : List Point) :
    minDistSq q (p :: l) = min ((distSq p q : ℚ) : WithTop ℚ) (minDistSq q l) := rfl

theorem minDistSq_append (q : Point) (l1 l2 : List Point) :
    minDistSq q (l1 ++ l2) = min (minDistSq q l1) (minDistSq q l2) := by
  induction l1 with
  | nil =>
    rw [List.nil_append, minDistSq_nil, min_comm]
    exact (min_eq_left le_top).symm
  | cons p l1 ih =>
    rw [List.cons_append, minDistSq_cons, minDistSq_cons, ih, min_assoc]

theorem le_minDistSq {q : Point} {l : List Point} {c : WithTop ℚ}
    (h : ∀ p ∈ l, c ≤ ((distSq p q : ℚ) : WithTop ℚ)) : c ≤ minDistSq q l := by
  induction l with
  | nil => exact le_top
  | cons p l ih =>
    rw [minDistSq_cons]
    exact le_min (h p (by simp)) (ih fun x hx => h x (by simp [hx]))

theorem minDistSq_lt_top {q : Point} {l : List Point} (h : l ≠ []) : minDistSq q l < ⊤ := by
  cases l with
  | nil => exact absurd rfl h
  | cons p l =>
    rw [minDistSq_cons]
    exact lt_of_le_of_lt (min_le_left _ _) (WithTop.coe_lt_top _)

theorem foldr_min_perm : ∀ {l l' : List (WithTop ℚ)}, l.Perm l' →
    l.foldr min ⊤ = l'.foldr min ⊤ := by
  intro l l' h
  induction h with
  | nil => rfl
  | cons x h ih => simp [List.foldr_cons, ih]
  | swap x y l => simp [List.foldr_cons, min_left_comm]
  | trans h1 h2 ih1 ih2 => exact ih1.trans ih2

theorem insertSorted_perm (le : α → α → Bool) (x : α) :
    ∀ (l : List α), (insertSorted le x l).Perm (x :: l)
  | [] => List.Perm.refl _
  | y :: ys => by
    rw [insertSorted]
    by_cases hle : le x y
    · simp [hle]
    · simp only [hle, if_false]
      exact (List.Perm.cons y (insertSorted_perm le x ys)).trans (List.Perm.swap x y ys)

theorem sortPairs_perm (le : α → α → Bool) : ∀ (l : List α), (sortPairs le l).Perm l
  | [] => List.Perm.refl _
  | x :: xs => by
    rw [sortPairs]
    exact (insertSorted_perm le x (sortPairs le xs)).trans (List.Perm.cons x (sortPairs_perm le xs))

theorem scanPoints_dist (q : Point) : ∀ (pts : List Point) (acc : BestFound),
    (scanPoints q pts acc).dist_sq = min acc.dist_sq (minDistSq q pts)
  | [], acc => by
    simp [scanPoints, minDistSq_nil]
  | p :: pts, acc => by
    rw [scanPoints, List.foldl_cons]
    have step : (if ((distSq p q : ℚ) : WithTop ℚ) < acc.dist_sq
        then (⟨distSq p q, some p⟩ : BestFound) else acc).dist_sq
        = min acc.dist_sq ((distSq p q : ℚ) : WithTop ℚ) := by
      by_cases hlt : ((distSq p q : ℚ) : WithTop ℚ) < acc.dist_sq
      · simp only [hlt, if_true]
        exact (min_eq_right (le_of_lt hlt)).symm
      · simp only [hlt, if_false]
        exact (min_eq_left (not_lt.mp hlt)).symm
    have ih := scanPoints_dist q pts
      (if ((distSq p q : ℚ) : WithTop ℚ) < acc.dist_sq then (⟨distSq p q, some p⟩ : BestFound) else acc)
    rw [scanPoints] at ih
    rw [ih, step, minDistSq_cons, min_assoc]

theorem scanPoints_accOk (q : Point) : ∀ (pts : List Point) (acc : BestFound) (l : List Point),
    AccOk q l acc → AccOk q (l ++ pts) (scanPoints q pts acc)
  | [], acc, l, h => by simpa [scanPoints] using h
  | p :: pts, acc, l, h => by
    rw [scanPoints, List.foldl_cons]
    have step : AccOk q (l ++ [p])
        (if ((distSq p q : ℚ) : WithTop ℚ) < acc.dist_sq
          then (⟨distSq p q, some p⟩ : BestFound) else acc) := by
      by_cases hlt : ((distSq p q : ℚ) : WithTop ℚ) < acc.dist_sq
      · simp only [hlt, if_true]
        exact Or.inr ⟨p, rfl, by simp, rfl⟩
      · simp only [hlt, if_false]
        exact AccOk_mono (fun x hx => by simp [hx]) h
    have ih := scanPoints_accOk q pts _ (l ++ [p]) step
    rw [scanPoints] at ih
    have heq : (l ++ [p]) ++ pts = l ++ (p :: pts) := by simp
    rwa [heq] at ih

/-- The effect of folding a family of accumulator transformers over a list:
pointwise specifications compose. -/
theorem foldl_step_spec {α : Type} (q : Point) (F : α → BestFound → BestFound)
    (L : α → List Point) :
    ∀ (cs : List α),
      (∀ x, ∀ acc : BestFound, ∀ l : List Point, AccOk q l acc →
        (F x acc).dist_sq = min acc.dist_sq (minDistSq q (L x)) ∧
        AccOk q (l ++ L x) (F x acc)) →
      ∀ (acc : BestFound) (l : List Point), AccOk q l acc →
        (cs.foldl (fun a x => F x a) acc).dist_sq
          = min acc.dist_sq ((cs.map (fun x => minDistSq q (L x))).foldr min ⊤) ∧
        AccOk q (l ++ (cs.map L).flatten) (cs.foldl (fun a x => F x a) acc)
  | [], hF, acc, l, h => by
    constructor
    · simp
    · simpa using h
  | x :: cs, hF, acc, l, h => by
    rw [List.foldl_cons]
    obtain ⟨hd, ha⟩ := hF x acc l h
    obtain ⟨ihd, iha⟩ := foldl_step_spec q F L cs hF (F x acc) (l ++ L x) ha
    constructor
    · rw [ihd, hd, List.map_cons, List.foldr_cons, min_assoc]
    · have heq : (l ++ L x) ++ ((cs.map L).flatten) = l ++ (((x :: cs).map L).flatten) := by
        simp
      rwa [heq] at iha

namespace QuadtreeNode

/-- Correctness of `query` (variant A): on trees satisfying the containment
invariant, the returned accumulator's best squared distance is the minimum
of the incoming best and the distances of all stored points, and the
accumulator stays sound.  Pruning is lossless by admissibility of
`distance_sq_to_point`. -/
theorem query_spec (q : Point) : ∀ (n : QuadtreeNode), PtsInv n →
    ∀ (acc : BestFound) (l : List Point), AccOk q l acc →
      (n.query q acc).dist_sq = min acc.dist_sq (minDistSq q n.toList) ∧
      AccOk q (l ++ n.toList) (n.query q acc) := by
  intro n
  induction n with
  | undivided b c pts =>
    intro hI acc l h
    simp only [PtsInv] at hI
    simp only [query, toList_undivided]
    by_cases hp : ((b.distance_sq_to_point q : ℚ) : WithTop ℚ) > acc.dist_sq
    · rw [if_pos hp]
      constructor
      · have hle : acc.dist_sq ≤ minDistSq q pts := by
          apply le_of_lt
          apply lt_of_lt_of_le hp
          apply le_minDistSq
          intro p hp'
          exact WithTop.coe_le_coe.mpr (Rectangle.distance_sq_le_distSq b q p (hI p hp'))
        exact (min_eq_left hle).symm
      · exact AccOk_mono (fun x hx => by simp [hx]) h
    · rw [if_neg hp]
      exact ⟨scanPoints_dist q pts acc, scanPoints_accOk q pts acc l h⟩
  | divided b c pts nw ne sw se ihnw ihne ihsw ihse =>
    intro hI acc l h
    obtain ⟨hall, hInw, hIne, hIsw, hIse⟩ := hI
    simp only [query, toList_divided]
    by_cases hp : ((b.distance_sq_to_point q : ℚ) : WithTop ℚ) > acc.dist_sq
    · rw [if_pos hp]
      constructor
      · have hle : acc.dist_sq
            ≤ minDistSq q (pts ++ (nw.toList ++ (ne.toList ++ (sw.toList ++ se.toList)))) := by
          apply le_of_lt
          apply lt_of_lt_of_le hp
          apply le_minDistSq
          intro p hp'
          exact WithTop.coe_le_coe.mpr (Rectangle.distance_sq_le_distSq b q p (hall p hp'))
        exact (min_eq_left hle).symm
      · exact AccOk_mono (fun x hx => by simpa using Or.inl hx) h
    · rw [if_neg hp]
      have hF : ∀ (x : ℕ × ℚ) (a : BestFound) (l' : List Point), AccOk q l' a →
          ((fun (child : ℕ × ℚ) (a : BestFound) =>
              match child.1 with
              | 0 => nw.query q a
              | 1 => ne.query q a
              | 2 => sw.query q a
              | _ => se.query q a) x a).dist_sq
            = min a.dist_sq (minDistSq q ((fun (child : ℕ × ℚ) =>
              match child.1 with
              | 0 => nw.toList
              | 1 => ne.toList
              | 2 => sw.toList
              | _ => se.toList) x)) ∧
          AccOk q (l' ++ ((fun (child : ℕ × ℚ) =>
              match child.1 with
              | 0 => nw.toList
              | 1 => ne.toList
              | 2 => sw.toList
              | _ => se.toList) x))
            ((fun (child : ℕ × ℚ) (a : BestFound) =>
              match child.1 with
              | 0 => nw.query q a
              | 1 => ne.query q a
              | 2 => sw.query q a
              | _ => se.query q a) x a) := by
        rintro ⟨i, k⟩ a l' h'
        rcases i with _ | _ | _ | i
        · exact ihnw hInw a l' h'
        · exact ihne hIne a l' h'
        · exact ihsw hIsw a l' h'
        · exact ihse hIse a l' h'
      have hmain := foldl_step_spec q
        (fun (child : ℕ × ℚ) (a : BestFound) =>
          match child.1 with
          | 0 => nw.query q a
          | 1 => ne.query q a
          | 2 => sw.query q a
          | _ => se.query q a)
        (fun (child : ℕ × ℚ) =>
          match child.1 with
          | 0 => nw.toList
          | 1 => ne.toList
          | 2 => sw.toList
          | _ => se.toList)
        (sortPairs (fun u v => decide (u.2 ≤ v.2))
          [((0 : ℕ), nw.boundary.distance_sq_to_point q),
           (1, ne.boundary.distance_sq_to_point q),
           (2, sw.boundary.distance_sq_to_point q),
           (3, se.boundary.distance_sq_to_point q)])
        hF (scanPoints q pts acc) (l ++ pts) (scanPoints_accOk q pts acc l h)
      have hperm : (sortPairs (fun (u v : ℕ × ℚ) => decide (u.2 ≤ v.2))
          [((0 : ℕ), nw.boundary.distance_sq_to_point q),
           (1, ne.boundary.distance_sq_to_point q),
           (2, sw.boundary.distance_sq_to_point q),
           (3, se.boundary.distance_sq_to_point q)]).Perm
          [((0 : ℕ), nw.boundary.distance_sq_to_point q),
           (1, ne.boundary.distance_sq_to_point q),
           (2, sw.boundary.distance_sq_to_point q),
           (3, se.boundary.distance_sq_to_point q)] :=
        sortPairs_perm _ _
      constructor
      · refine hmain.1.trans ?_
        have hM := foldr_min_perm (List.Perm.map (fun (x : ℕ × ℚ) =>
            minDistSq q ((fun (child : ℕ × ℚ) =>
              match child.1 with
              | 0 => nw.toList
              | 1 => ne.toList
              | 2 => sw.toList
              | _ => se.toList) x)) hperm)
        rw [hM]
        simp only [List.map_cons, List.map_nil, List.foldr_cons, List.foldr_nil,
          Function.comp]
        rw [scanPoints_dist q pts acc]
        rw [minDistSq_append, minDistSq_append, minDistSq_append, minDistSq_append]
        rw [min_eq_left (le_top : minDistSq q se.toList ≤ ⊤)]
        rw [min_assoc]
      · apply AccOk_mono ?_ hmain.2
        intro x hx
        simp only [List.mem_append] at hx ⊢
        rcases hx with (hx | hx) | hx
        · exact Or.inl hx
        · exact Or.inr (by simp [hx])
        · rw [List.mem_flatten] at hx
          obtain ⟨s, hs, hxs⟩ := hx
          rw [List.mem_map] at hs
          obtain ⟨cpair, hc, rfl⟩ := hs
          obtain ⟨i, k⟩ := cpair
          right
          rcases i with _ | _ | _ | i <;> simp at hxs <;> simp [hxs]

end QuadtreeNode

namespace QuadtreeNode

/-- Correctness of `_find_nearest` (variant B): identical specification to
`query`; only the child visiting order differs, and the accumulator result
is order-independent. -/
theorem find_nearest_spec (q : Point) : ∀ (n : QuadtreeNode), PtsInv n →
    ∀ (acc : BestFound) (l : List Point), AccOk q l acc →
      (n.find_nearest q acc).dist_sq = min acc.dist_sq (minDistSq q n.toList) ∧
      AccOk q (l ++ n.toList) (n.find_nearest q acc) := by
  intro n
  induction n with
  | undivided b c pts =>
    intro hI acc l h
    simp only [PtsInv] at hI
    simp only [find_nearest, toList_undivided]
    by_cases hp : ((b.distance_sq_to_point q : ℚ) : WithTop ℚ) > acc.dist_sq
    · rw [if_pos hp]
      constructor
      · have hle : acc.dist_sq ≤ minDistSq q pts := by
          apply le_of_lt
          apply lt_of_lt_of_le hp
          apply le_minDistSq
          intro p hp'
          exact WithTop.coe_le_coe.mpr (Rectangle.distance_sq_le_distSq b q p (hI p hp'))
        exact (min_eq_left hle).symm
      · exact AccOk_mono (fun x hx => by simp [hx]) h
    · rw [if_neg hp]
      exact ⟨scanPoints_dist q pts acc, scanPoints_accOk q pts acc l h⟩
  | divided b c pts nw ne sw se ihnw ihne ihsw ihse =>
    intro hI acc l h
    obtain ⟨hall, hInw, hIne, hIsw, hIse⟩ := hI
    simp only [find_nearest, toList_divided]
    by_cases hp : ((b.distance_sq_to_point q : ℚ) : WithTop ℚ) > acc.dist_sq
    · rw [if_pos hp]
      constructor
      · have hle : acc.dist_sq
            ≤ minDistSq q (pts ++ (nw.toList ++ (ne.toList ++ (sw.toList ++ se.toList)))) := by
          apply le_of_lt
          apply lt_of_lt_of_le hp
          apply le_minDistSq
          intro p hp'
          exact WithTop.coe_le_coe.mpr (Rectangle.distance_sq_le_distSq b q p (hall p hp'))
        exact (min_eq_left hle).symm
      · exact AccOk_mono (fun x hx => by simpa using Or.inl hx) h
    · rw [if_neg hp]
      have hF : ∀ (x : ℕ × Bool) (a : BestFound) (l' : List Point), AccOk q l' a →
          ((fun (child : ℕ × Bool) (a : BestFound) =>
              match child.1 with
              | 0 => nw.find_nearest q a
              | 1 => ne.find_nearest q a
              | 2 => sw.find_nearest q a
              | _ => se.find_nearest q a) x a).dist_sq
            = min a.dist_sq (minDistSq q ((fun (child : ℕ × Bool) =>
              match child.1 with
              | 0 => nw.toList
              | 1 => ne.toList
              | 2 => sw.toList
              | _ => se.toList) x)) ∧
          AccOk q (l' ++ ((fun (child : ℕ × Bool) =>
              match child.1 with
              | 0 => nw.toList
              | 1 => ne.toList
              | 2 => sw.toList
              | _ => se.toList) x))
            ((fun (child : ℕ × Bool) (a : BestFound) =>
              match child.1 with
              | 0 => nw.find_nearest q a
              | 1 => ne.find_nearest q a
              | 2 => sw.find_nearest q a
              | _ => se.find_nearest q a) x a) := by
        rintro ⟨i, k⟩ a l' h'
        rcases i with _ | _ | _ | i
        · exact ihnw hInw a l' h'
        · exact ihne hIne a l' h'
        · exact ihsw hIsw a l' h'
        · exact ihse hIse a l' h'
      have hmain := foldl_step_spec q
        (fun (child : ℕ × Bool) (a : BestFound) =>
          match child.1 with
          | 0 => nw.find_nearest q a
          | 1 => ne.find_nearest q a
          | 2 => sw.find_nearest q a
          | _ => se.find_nearest q a)
        (fun (child : ℕ × Bool) =>
          match child.1 with
          | 0 => nw.toList
          | 1 => ne.toList
          | 2 => sw.toList
          | _ => se.toList)
        (sortPairs (fun u v => decide (u.2 ≤ v.2))
          [((0 : ℕ), !(nw.boundary.contains q)),
           (1, !(ne.boundary.contains q)),
           (2, !(sw.boundary.contains q)),
           (3, !(se.boundary.contains q))])
        hF (scanPoints q pts acc) (l ++ pts) (scanPoints_accOk q pts acc l h)
      have hperm : (sortPairs (fun (u v : ℕ × Bool) => decide (u.2 ≤ v.2))
          [((0 : ℕ), !(nw.boundary.contains q)),
           (1, !(ne.boundary.contains q)),
           (2, !(sw.boundary.contains q)),
           (3, !(se.boundary.contains q))]).Perm
          [((0 : ℕ), !(nw.boundary.contains q)),
           (1, !(ne.boundary.contains q)),
           (2, !(sw.boundary.contains q)),
           (3, !(se.boundary.contains q))] :=
        sortPairs_perm _ _
      constructor
      · refine hmain.1.trans ?_
        have hM := foldr_min_perm (List.Perm.map (fun (x : ℕ × Bool) =>
            minDistSq q ((fun (child : ℕ × Bool) =>
              match child.1 with
              | 0 => nw.toList
              | 1 => ne.toList
              | 2 => sw.toList
              | _ => se.toList) x)) hperm)
        rw [hM]
        simp only [List.map_cons, List.map_nil, List.foldr_cons, List.foldr_nil,
          Function.comp]
        rw [scanPoints_dist q pts acc]
        rw [minDistSq_append, minDistSq_append, minDistSq_append, minDistSq_append]
        rw [min_eq_left (le_top : minDistSq q se.toList ≤ ⊤)]
        rw [min_assoc]
      · apply AccOk_mono ?_ hmain.2
        intro x hx
        simp only [List.mem_append] at hx ⊢
        rcases hx with (hx | hx) | hx
        · exact Or.inl hx
        · exact Or.inr (by simp [hx])
        · rw [List.mem_flatten] at hx
          obtain ⟨s, hs, hxs⟩ := hx
          rw [List.mem_map] at hs
          obtain ⟨cpair, hc, rfl⟩ := hs
          obtain ⟨i, k⟩ := cpair
          right
          rcases i with _ | _ | _ | i <;> simp at hxs <;> simp [hxs]

end QuadtreeNode

theorem find_closest_brute_force_aux (q : Point) :
    ∀ (l : List Point) (init : Option Point × WithTop ℚ),
      (l.foldl
        (fun best p =>
          if ((distSq p q : ℚ) : WithTop ℚ) < best.2 then (some p, ((distSq p q : ℚ) : WithTop ℚ))
          else best) init).2 = min init.2 (minDistSq q l)
  | [], init => by simp [minDistSq_nil]
  | p :: l, init => by
    rw [List.foldl_cons]
    have step : (if ((distSq p q : ℚ) : WithTop ℚ) < init.2
        then (some p, ((distSq p q : ℚ) : WithTop ℚ)) else init).2
        = min init.2 ((distSq p q : ℚ) : WithTop ℚ) := by
      by_cases hlt : ((distSq p q : ℚ) : WithTop ℚ) < init.2
      · simp only [hlt, if_true]
        exact (min_eq_right (le_of_lt hlt)).symm
      · simp only [hlt, if_false]
        exact (min_eq_left (not_lt.mp hlt)).symm
    rw [find_closest_brute_force_aux q l, step, minDistSq_cons, min_assoc]

/-- The oracle's squared minimum is the minimum squared distance over the
scanned points. -/
theorem find_closest_brute_force_dist (q : Point) (l : List Point) :
    (find_closest_brute_force q l).2 = minDistSq q l := by
  have h := find_closest_brute_force_aux q l (none, ⊤)
  rw [find_closest_brute_force]
  rw [h]
  exact min_eq_right le_top

namespace QuadtreeNode

/-- State-threaded form of `query`: the same Python method with the node
state passed in and returned explicitly, so that the claim "searching does
not mutate the tree" can be stated and proved.  Each visited child returns
its (possibly updated) state, which is written back into that child's slot;
a node whose statements never assign to `self` must return itself
unchanged, which `query_st_eq` proves. -/
def query_st : QuadtreeNode → Point → BestFound → QuadtreeNode × BestFound
  | undivided b cap pts, p, best_found =>
    if ((b.distance_sq_to_point p : ℚ) : WithTop ℚ) > best_found.dist_sq then
      (undivided b cap pts, best_found)
    else (undivided b cap pts, scanPoints p pts best_found)
  | divided b cap pts nw ne sw se, p, best_found =>
    if ((b.distance_sq_to_point p : ℚ) : WithTop ℚ) > best_found.dist_sq then
      (divided b cap pts nw ne sw se, best_found)
    else
      let acc1 := scanPoints p pts best_found
      let children := sortPairs (fun u v => decide (u.2 ≤ v.2))
        [((0 : ℕ), nw.boundary.distance_sq_to_point p),
         (1, ne.boundary.distance_sq_to_point p),
         (2, sw.boundary.distance_sq_to_point p),
         (3, se.boundary.distance_sq_to_point p)]
      let r := children.foldl
        (fun (st : (QuadtreeNode × QuadtreeNode × QuadtreeNode × QuadtreeNode) × BestFound)
            child =>
          match child.1 with
          | 0 => ((((nw.query_st p st.2).1, st.1.2.1, st.1.2.2.1, st.1.2.2.2)),
              (nw.query_st p st.2).2)
          | 1 => (((st.1.1, (ne.query_st p st.2).1, st.1.2.2.1, st.1.2.2.2)),
              (ne.query_st p st.2).2)
          | 2 => (((st.1.1, st.1.2.1, (sw.query_st p st.2).1, st.1.2.2.2)),
              (sw.query_st p st.2).2)
          | _ => (((st.1.1, st.1.2.1, st.1.2.2.1, (se.query_st p st.2).1)),
              (se.query_st p st.2).2))
        ((nw, ne, sw, se), acc1)
      (divided b cap pts r.1.1 r.1.2.1 r.1.2.2.1 r.1.2.2.2, r.2)

/-- State-threaded form of `_find_nearest`, as for `query_st`. -/
def find_nearest_st : QuadtreeNode → Point → BestFound → QuadtreeNode × BestFound
  | undivided b cap pts, q, acc =>
    if ((b.distance_sq_to_point q : ℚ) : WithTop ℚ) > acc.dist_sq then
      (undivided b cap pts, acc)
    else (undivided b cap pts, scanPoints q pts acc)
  | divided b cap pts nw ne sw se, q, acc =>
    if ((b.distance_sq_to_point q : ℚ) : WithTop ℚ) > acc.dist_sq then
      (divided b cap pts nw ne sw se, acc)
    else
      let acc1 := scanPoints q pts acc
      let children := sortPairs (fun u v => decide (u.2 ≤ v.2))
        [((0 : ℕ), !(nw.boundary.contains q)),
         (1, !(ne.boundary.contains q)),
         (2, !(sw.boundary.contains q)),
         (3, !(se.boundary.contains q))]
      let r := children.foldl
        (fun (st : (QuadtreeNode × QuadtreeNode × QuadtreeNode × QuadtreeNode) × BestFound)
            child =>
          match child.1 with
          | 0 => ((((nw.find_nearest_st q st.2).1, st.1.2.1, st.1.2.2.1, st.1.2.2.2)),
              (nw.find_nearest_st q st.2).2)
          | 1 => (((st.1.1, (ne.find_nearest_st q st.2).1, st.1.2.2.1, st.1.2.2.2)),
              (ne.find_nearest_st q st.2).2)
          | 2 => (((st.1.1, st.1.2.1, (sw.find_nearest_st q st.2).1, st.1.2.2.2)),
              (sw.find_nearest_st q st.2).2)
          | _ => (((st.1.1, st.1.2.1, st.1.2.2.1, (se.find_nearest_st q st.2).1)),
              (se.find_nearest_st q st.2).2))
        ((nw, ne, sw, se), acc1)
      (divided b cap pts r.1.1 r.1.2.1 r.1.2.2.1 r.1.2.2.2, r.2)

end QuadtreeNode

/-- State-threaded form of `Quadtree.find_nearest`: returns the tree state
after the search together with the result pair. -/
def Quadtree.find_nearest_st (t : Quadtree) (query_point : Point) :
    Quadtree × (Option Point × WithTop ℚ) :=
  let best_found := initBest
  let r := t.root.find_nearest_st query_point best_found
  (⟨t.boundary, r.1⟩, (r.2.point, r.2.dist_sq))

/-- Folding slot-updating steps over index/key pairs: when every child's
threaded step returns that child unchanged (with some accumulator update),
the whole fold leaves the four slots unchanged and the accumulator follows
the pure fold. -/
theorem foldl_slots_eq {κ : Type} (nw ne sw se : QuadtreeNode)
    (F0 F1 F2 F3 : BestFound → QuadtreeNode × BestFound)
    (G0 G1 G2 G3 : BestFound → BestFound)
    (h0 : ∀ a, F0 a = (nw, G0 a)) (h1 : ∀ a, F1 a = (ne, G1 a))
    (h2 : ∀ a, F2 a = (sw, G2 a)) (h3 : ∀ a, F3 a = (se, G3 a)) :
    ∀ (cs : List (ℕ × κ)) (a : BestFound),
      cs.foldl
        (fun (st : (QuadtreeNode × QuadtreeNode × QuadtreeNode × QuadtreeNode) × BestFound)
            child =>
          match child.1 with
          | 0 => (((F0 st.2).1, st.1.2.1, st.1.2.2.1, st.1.2.2.2), (F0 st.2).2)
          | 1 => ((st.1.1, (F1 st.2).1, st.1.2.2.1, st.1.2.2.2), (F1 st.2).2)
          | 2 => ((st.1.1, st.1.2.1, (F2 st.2).1, st.1.2.2.2), (F2 st.2).2)
          | _ => ((st.1.1, st.1.2.1, st.1.2.2.1, (F3 st.2).1), (F3 st.2).2))
        ((nw, ne, sw, se), a)
      = ((nw, ne, sw, se), cs.foldl
          (fun (a : BestFound) child =>
            match child.1 with
            | 0 => G0 a
            | 1 => G1 a
            | 2 => G2 a
            | _ => G3 a) a)
  | [], a => rfl
  | (i, k) :: cs, a => by
    rw [List.foldl_cons, List.foldl_cons]
    rcases i with _ | _ | _ | i
    · show List.foldl
        (fun (st : (QuadtreeNode × QuadtreeNode × QuadtreeNode × QuadtreeNode) × BestFound)
            (child : ℕ × κ) =>
          match child.1 with
          | 0 => (((F0 st.2).1, st.1.2.1, st.1.2.2.1, st.1.2.2.2), (F0 st.2).2)
          | 1 => ((st.1.1, (F1 st.2).1, st.1.2.2.1, st.1.2.2.2), (F1 st.2).2)
          | 2 => ((st.1.1, st.1.2.1, (F2 st.2).1, st.1.2.2.2), (F2 st.2).2)
          | _ => ((st.1.1, st.1.2.1, st.1.2.2.1, (F3 st.2).1), (F3 st.2).2))
        (((F0 a).1, ne, sw, se), (F0 a).2) cs
        = ((nw, ne, sw, se), List.foldl
          (fun (a : BestFound) (child : ℕ × κ) =>
            match child.1 with
            | 0 => G0 a
            | 1 => G1 a
            | 2 => G2 a
            | _ => G3 a) (G0 a) cs)
      rw [h0]
      exact foldl_slots_eq nw ne sw se F0 F1 F2 F3 G0 G1 G2 G3 h0 h1 h2 h3 cs (G0 a)
    · show List.foldl
        (fun (st : (QuadtreeNode × QuadtreeNode × QuadtreeNode × QuadtreeNode) × BestFound)
            (child : ℕ × κ) =>
          match child.1 with
          | 0 => (((F0 st.2).1, st.1.2.1, st.1.2.2.1, st.1.2.2.2), (F0 st.2).2)
          | 1 => ((st.1.1, (F1 st.2).1, st.1.2.2.1, st.1.2.2.2), (F1 st.2).2)
          | 2 => ((st.1.1, st.1.2.1, (F2 st.2).1, st.1.2.2.2), (F2 st.2).2)
          | _ => ((st.1.1, st.1.2.1, st.1.2.2.1, (F3 st.2).1), (F3 st.2).2))
        ((nw, (F1 a).1, sw, se), (F1 a).2) cs
        = ((nw, ne, sw, se), List.foldl
          (fun (a : BestFound) (child : ℕ × κ) =>
            match child.1 with
            | 0 => G0 a
            | 1 => G1 a
            | 2 => G2 a
            | _ => G3 a) (G1 a) cs)
      rw [h1]
      exact foldl_slots_eq nw ne sw se F0 F1 F2 F3 G0 G1 G2 G3 h0 h1 h2 h3 cs (G1 a)
    · show List.foldl
        (fun (st : (QuadtreeNode × QuadtreeNode × QuadtreeNode × QuadtreeNode) × BestFound)
            (child : ℕ × κ) =>
          match child.1 with
          | 0 => (((F0 st.2).1, st.1.2.1, st.1.2.2.1, st.1.2.2.2), (F0 st.2).2)
          | 1 => ((st.1.1, (F1 st.2).1, st.1.2.2.1, st.1.2.2.2), (F1 st.2).2)
          | 2 => ((st.1.1, st.1.2.1, (F2 st.2).1, st.1.2.2.2), (F2 st.2).2)
          | _ => ((st.1.1, st.1.2.1, st.1.2.2.1, (F3 st.2).1), (F3 st.2).2))
        ((nw, ne, (F2 a).1, se), (F2 a).2) cs
        = ((nw, ne, sw, se), List.foldl
          (fun (a : BestFound) (child : ℕ × κ) =>
            match child.1 with
            | 0 => G0 a
            | 1 => G1 a
            | 2 => G2 a
            | _ => G3 a) (G2 a) cs)
      rw [h2]
      exact foldl_slots_eq nw ne sw se F0 F1 F2 F3 G0 G1 G2 G3 h0 h1 h2 h3 cs (G2 a)
    · show List.foldl
        (fun (st : (QuadtreeNode × QuadtreeNode × QuadtreeNode × QuadtreeNode) × BestFound)
            (child : ℕ × κ) =>
          match child.1 with
          | 0 => (((F0 st.2).1, st.1.2.1, st.1.2.2.1, st.1.2.2.2), (F0 st.2).2)
          | 1 => ((st.1.1, (F1 st.2).1, st.1.2.2.1, st.1.2.2.2), (F1 st.2).2)
          | 2 => ((st.1.1, st.1.2.1, (F2 st.2).1, st.1.2.2.2), (F2 st.2).2)
          | _ => ((st.1.1, st.1.2.1, st.1.2.2.1, (F3 st.2).1), (F3 st.2).2))
        ((nw, ne, sw, (F3 a).1), (F3 a).2) cs
        = ((nw, ne, sw, se), List.foldl
          (fun (a : BestFound) (child : ℕ × κ) =>
            match child.1 with
            | 0 => G0 a
            | 1 => G1 a
            | 2 => G2 a
            | _ => G3 a) (G3 a) cs)
      rw [h3]
      exact foldl_slots_eq nw ne sw se F0 F1 F2 F3 G0 G1 G2 G3 h0 h1 h2 h3 cs (G3 a)

namespace QuadtreeNode

/-- The state-threaded `query` returns the tree unchanged and computes the
same accumulator as the pure `query`. -/
theorem query_st_eq (q : Point) : ∀ (n : QuadtreeNode) (acc : BestFound),
    n.query_st q acc = (n, n.query q acc) := by
  intro n
  induction n with
  | undivided b cap pts =>
    intro acc
    simp only [query_st, query]
    by_cases hp : ((b.distance_sq_to_point q : ℚ) : WithTop ℚ) > acc.dist_sq
    · rw [if_pos hp, if_pos hp]
    · rw [if_neg hp, if_neg hp]
  | divided b cap pts nw ne sw se ihnw ihne ihsw ihse =>
    intro acc
    simp only [query_st, query]
    by_cases hp : ((b.distance_sq_to_point q : ℚ) : WithTop ℚ) > acc.dist_sq
    · rw [if_pos hp, if_pos hp]
    · rw [if_neg hp, if_neg hp]
      have hr :
          List.foldl
            (fun (st : (QuadtreeNode × QuadtreeNode × QuadtreeNode × QuadtreeNode) × BestFound)
                child =>
              match child.1 with
              | 0 => ((((nw.query_st q st.2).1, st.1.2.1, st.1.2.2.1, st.1.2.2.2)),
                  (nw.query_st q st.2).2)
              | 1 => (((st.1.1, (ne.query_st q st.2).1, st.1.2.2.1, st.1.2.2.2)),
                  (ne.query_st q st.2).2)
              | 2 => (((st.1.1, st.1.2.1, (sw.query_st q st.2).1, st.1.2.2.2)),
                  (sw.query_st q st.2).2)
              | _ => (((st.1.1, st.1.2.1, st.1.2.2.1, (se.query_st q st.2).1)),
                  (se.query_st q st.2).2))
            ((nw, ne, sw, se), scanPoints q pts acc)
            (sortPairs (fun u v => decide (u.2 ≤ v.2))
              [((0 : ℕ), nw.boundary.distance_sq_to_point q),
               (1, ne.boundary.distance_sq_to_point q),
               (2, sw.boundary.distance_sq_to_point q),
               (3, se.boundary.distance_sq_to_point q)])
          = ((nw, ne, sw, se),
            List.foldl
              (fun (a : BestFound) child =>
                match child.1 with
                | 0 => nw.query q a
                | 1 => ne.query q a
                | 2 => sw.query q a
                | _ => se.query q a)
              (scanPoints q pts acc)
              (sortPairs (fun u v => decide (u.2 ≤ v.2))
                [((0 : ℕ), nw.boundary.distance_sq_to_point q),
                 (1, ne.boundary.distance_sq_to_point q),
                 (2, sw.boundary.distance_sq_to_point q),
                 (3, se.boundary.distance_sq_to_point q)])) :=
        foldl_slots_eq nw ne sw se
          (fun a => nw.query_st q a) (fun a => ne.query_st q a)
          (fun a => sw.query_st q a) (fun a => se.query_st q a)
          (fun a => nw.query q a) (fun a => ne.query q a)
          (fun a => sw.query q a) (fun a => se.query q a)
          ihnw ihne ihsw ihse _ _
      rw [hr]

/-- The state-threaded `_find_nearest` returns the tree unchanged and
computes the same accumulator as the pure `find_nearest`. -/
theorem find_nearest_st_eq (q : Point) : ∀ (n : QuadtreeNode) (acc : BestFound),
    n.find_nearest_st q acc = (n, n.find_nearest q acc) := by
  intro n
  induction n with
  | undivided b cap pts =>
    intro acc
    simp only [find_nearest_st, find_nearest]
    by_cases hp : ((b.distance_sq_to_point q : ℚ) : WithTop ℚ) > acc.dist_sq
    · rw [if_pos hp, if_pos hp]
    · rw [if_neg hp, if_neg hp]
  | divided b cap pts nw ne sw se ihnw ihne ihsw ihse =>
    intro acc
    simp only [find_nearest_st, find_nearest]
    by_cases hp : ((b.distance_sq_to_point q : ℚ) : WithTop ℚ) > acc.dist_sq
    · rw [if_pos hp, if_pos hp]
    · rw [if_neg hp, if_neg hp]
      have hr :
          List.foldl
            (fun (st : (QuadtreeNode × QuadtreeNode × QuadtreeNode × QuadtreeNode) × BestFound)
                child =>
              match child.1 with
              | 0 => ((((nw.find_nearest_st q st.2).1, st.1.2.1, st.1.2.2.1, st.1.2.2.2)),
                  (nw.find_nearest_st q st.2).2)
              | 1 => (((st.1.1, (ne.find_nearest_st q st.2).1, st.1.2.2.1, st.1.2.2.2)),
                  (ne.find_nearest_st q st.2).2)
              | 2 => (((st.1.1, st.1.2.1, (sw.find_nearest_st q st.2).1, st.1.2.2.2)),
                  (sw.find_nearest_st q st.2).2)
              | _ => (((st.1.1, st.1.2.1, st.1.2.2.1, (se.find_nearest_st q st.2).1)),
                  (se.find_nearest_st q st.2).2))
            ((nw, ne, sw, se), scanPoints q pts acc)
            (sortPairs (fun u v => decide (u.2 ≤ v.2))
              [((0 : ℕ), !(nw.boundary.contains q)),
               (1, !(ne.boundary.contains q)),
               (2, !(sw.boundary.contains q)),
               (3, !(se.boundary.contains q))])
          = ((nw, ne, sw, se),
            List.foldl
              (fun (a : BestFound) child =>
                match child.1 with
                | 0 => nw.find_nearest q a
                | 1 => ne.find_nearest q a
                | 2 => sw.find_nearest q a
                | _ => se.find_nearest q a)
              (scanPoints q pts acc)
              (sortPairs (fun u v => decide (u.2 ≤ v.2))
                [((0 : ℕ), !(nw.boundary.contains q)),
                 (1, !(ne.boundary.contains q)),
                 (2, !(sw.boundary.contains q)),
                 (3, !(se.boundary.contains q))])) :=
        foldl_slots_eq nw ne sw se
          (fun a => nw.find_nearest_st q a) (fun a => ne.find_nearest_st q a)
          (fun a => sw.find_nearest_st q a) (fun a => se.find_nearest_st q a)
          (fun a => nw.find_nearest q a) (fun a => ne.find_nearest q a)
          (fun a => sw.find_nearest q a) (fun a => se.find_nearest q a)
          ihnw ihne ihsw ihse _ _
      rw [hr]

end QuadtreeNode

/-- The state-threaded handle-level search returns the handle unchanged
together with the pure result. -/
theorem Quadtree.find_nearest_st_spec (t : Quadtree) (q : Point) :
    t.find_nearest_st q = (t, t.find_nearest q) := by
  obtain ⟨b, root⟩ := t
  simp only [Quadtree.find_nearest_st, Quadtree.find_nearest]
  rw [QuadtreeNode.find_nearest_st_eq]

theorem Rectangle.contains_false (r : Rectangle) (p : Point)
    (h : ¬(r.x ≤ p.x ∧ p.x < r.x + r.width ∧ r.y ≤ p.y ∧ p.y < r.y + r.height)) :
    r.contains p = false :=
  decide_eq_false h

theorem QuadtreeNode.insert_one (n : QuadtreeNode) (p : Point) :
    QuadtreeNode.insert 1 n p = QuadtreeNode.insertStep (QuadtreeNode.insert 0) n p := rfl

/-- C2: `Rectangle.distance_sq_to_point` is an admissible lower bound for
pruning: it never exceeds the squared distance from the query `q` to any
point `p` contained in the rectangle, and it is zero whenever the query
itself is contained. -/
theorem distance_sq_to_point_admissible (r : Rectangle) (q p : Point) :
    (r.contains p = true → r.distance_sq_to_point q ≤ distSq p q) ∧
    (r.contains q = true → r.distance_sq_to_point q = 0) :=
  ⟨fun hp => Rectangle.distance_sq_le_distSq r q p hp,
   fun hq => Rectangle.distance_sq_eq_zero_of_contains r q hq⟩

theorem distance_sq_to_point_admissible_witness :
    Rectangle.contains ⟨0, 0, 2, 2⟩ ⟨1, 1, none⟩ = true ∧
    Rectangle.distance_sq_to_point ⟨0, 0, 2, 2⟩ ⟨3, 3, none⟩ ≤ distSq ⟨1, 1, none⟩ ⟨3, 3, none⟩ ∧
    Rectangle.distance_sq_to_point ⟨0, 0, 2, 2⟩ ⟨1, 1, none⟩ = 0 :=
  ⟨by decide,
   (distance_sq_to_point_admissible ⟨0, 0, 2, 2⟩ ⟨3, 3, none⟩ ⟨1, 1, none⟩).1 (by decide),
   (distance_sq_to_point_admissible ⟨0, 0, 2, 2⟩ ⟨1, 1, none⟩ ⟨1, 1, none⟩).2 (by decide)⟩

/-- C4: the quartering of `subdivide` partitions the parent boundary
exactly: a point inside the parent lies in exactly one of the four child
boundaries (half-open semantics: no gaps and no overlaps), and
`_insert_to_children` on four fresh children with positive capacity
accepts the point, storing it in exactly one child — never duplicated,
never dropped. -/
theorem subdivide_exactly_one_child (b : Rectangle) (p : Point) (cap : ℕ)
    (hb : b.contains p = true) (hcap : 0 < cap) :
    List.countP (fun rect => rect.contains p)
      [b.subdivideBounds.1, b.subdivideBounds.2.1,
       b.subdivideBounds.2.2.1, b.subdivideBounds.2.2.2] = 1 ∧
    (∃ nw' ne' sw' se' r,
      QuadtreeNode.insertToChildrenF (QuadtreeNode.insert 1)
        (QuadtreeNode.make b.subdivideBounds.1 cap)
        (QuadtreeNode.make b.subdivideBounds.2.1 cap)
        (QuadtreeNode.make b.subdivideBounds.2.2.1 cap)
        (QuadtreeNode.make b.subdivideBounds.2.2.2 cap) p
        = some (nw', ne', sw', se', r) ∧ r = true ∧
      nw'.points ++ ne'.points ++ sw'.points ++ se'.points = [p]) := by
  obtain ⟨hx1, hx2, hy1, hy2⟩ := (Rectangle.contains_iff b p).mp hb
  have hlen : ([] : List Point).length < cap := by simpa using hcap
  simp only [Rectangle.subdivideBounds]
  rcases lt_or_le p.x (b.x + b.width / 2) with hx | hx <;>
    rcases lt_or_le p.y (b.y + b.height / 2) with hy | hy
  · have c1 : Rectangle.contains ⟨b.x, b.y, b.width / 2, b.height / 2⟩ p = true := by
      rw [Rectangle.contains_iff]; exact ⟨hx1, hx, hy1, hy⟩
    have c2 : Rectangle.contains ⟨b.x + b.width / 2, b.y, b.width / 2, b.height / 2⟩ p = false :=
      Rectangle.contains_false _ _ (by rintro ⟨h1, h2, h3, h4⟩; linarith)
    have c3 : Rectangle.contains ⟨b.x, b.y + b.height / 2, b.width / 2, b.height / 2⟩ p = false :=
      Rectangle.contains_false _ _ (by rintro ⟨h1, h2, h3, h4⟩; linarith)
    have c4 : Rectangle.contains ⟨b.x + b.width / 2, b.y + b.height / 2, b.width / 2, b.height / 2⟩ p
        = false :=
      Rectangle.contains_false _ _ (by rintro ⟨h1, h2, h3, h4⟩; linarith)
    refine ⟨by simp [List.countP_cons, c1, c2, c3, c4], ?_⟩
    have e1 : QuadtreeNode.insert 1
        (QuadtreeNode.make ⟨b.x, b.y, b.width / 2, b.height / 2⟩ cap) p
        = some (QuadtreeNode.undivided ⟨b.x, b.y, b.width / 2, b.height / 2⟩ cap [p], true) := by
      rw [QuadtreeNode.insert_one, QuadtreeNode.make,
        QuadtreeNode.insertStep_leaf_spare c1 hlen]
      rfl
    refine ⟨QuadtreeNode.undivided ⟨b.x, b.y, b.width / 2, b.height / 2⟩ cap [p],
      QuadtreeNode.make ⟨b.x + b.width / 2, b.y, b.width / 2, b.height / 2⟩ cap,
      QuadtreeNode.make ⟨b.x, b.y + b.height / 2, b.width / 2, b.height / 2⟩ cap,
      QuadtreeNode.make ⟨b.x + b.width / 2, b.y + b.height / 2, b.width / 2, b.height / 2⟩ cap,
      true, ?_, rfl, by simp [QuadtreeNode.make, QuadtreeNode.points]⟩
    simp only [QuadtreeNode.insertToChildrenF, e1]
  · have c1 : Rectangle.contains ⟨b.x, b.y, b.width / 2, b.height / 2⟩ p = false :=
      Rectangle.contains_false _ _ (by rintro ⟨h1, h2, h3, h4⟩; linarith)
    have c2 : Rectangle.contains ⟨b.x + b.width / 2, b.y, b.width / 2, b.height / 2⟩ p = false :=
      Rectangle.contains_false _ _ (by rintro ⟨h1, h2, h3, h4⟩; linarith)
    have c3 : Rectangle.contains ⟨b.x, b.y + b.height / 2, b.width / 2, b.height / 2⟩ p = true := by
      rw [Rectangle.contains_iff]; exact ⟨hx1, hx, hy, by linarith⟩
    have c4 : Rectangle.contains ⟨b.x + b.width / 2, b.y + b.height / 2, b.width / 2, b.height / 2⟩ p
        = false :=
      Rectangle.contains_false _ _ (by rintro ⟨h1, h2, h3, h4⟩; linarith)
    refine ⟨by simp [List.countP_cons, c1, c2, c3, c4], ?_⟩
    have e1 : QuadtreeNode.insert 1
        (QuadtreeNode.make ⟨b.x, b.y, b.width / 2, b.height / 2⟩ cap) p
        = some (QuadtreeNode.make ⟨b.x, b.y, b.width / 2, b.height / 2⟩ cap, false) := by
      rw [QuadtreeNode.insert_one, QuadtreeNode.make, QuadtreeNode.insertStep_leaf_cnot c1]
    have e2 : QuadtreeNode.insert 1
        (QuadtreeNode.make ⟨b.x + b.width / 2, b.y, b.width / 2, b.height / 2⟩ cap) p
        = some (QuadtreeNode.make ⟨b.x + b.width / 2, b.y, b.width / 2, b.height / 2⟩ cap, false) := by
      rw [QuadtreeNode.insert_one, QuadtreeNode.make, QuadtreeNode.insertStep_leaf_cnot c2]
    have e3 : QuadtreeNode.insert 1
        (QuadtreeNode.make ⟨b.x, b.y + b.height / 2, b.width / 2, b.height / 2⟩ cap) p
        = some (QuadtreeNode.undivided ⟨b.x, b.y + b.height / 2, b.width / 2, b.height / 2⟩ cap [p],
            true) := by
      rw [QuadtreeNode.insert_one, QuadtreeNode.make,
        QuadtreeNode.insertStep_leaf_spare c3 hlen]
      rfl
    refine ⟨QuadtreeNode.make ⟨b.x, b.y, b.width / 2, b.height / 2⟩ cap,
      QuadtreeNode.make ⟨b.x + b.width / 2, b.y, b.width / 2, b.height / 2⟩ cap,
      QuadtreeNode.undivided ⟨b.x, b.y + b.height / 2, b.width / 2, b.height / 2⟩ cap [p],
      QuadtreeNode.make ⟨b.x + b.width / 2, b.y + b.height / 2, b.width / 2, b.height / 2⟩ cap,
      true, ?_, rfl, by simp [QuadtreeNode.make, QuadtreeNode.points]⟩
    simp only [QuadtreeNode.insertToChildrenF, e1, e2, e3]
  · have c1 : Rectangle.contains ⟨b.x, b.y, b.width / 2, b.height / 2⟩ p = false :=
      Rectangle.contains_false _ _ (by rintro ⟨h1, h2, h3, h4⟩; linarith)
    have c2 : Rectangle.contains ⟨b.x + b.width / 2, b.y, b.width / 2, b.height / 2⟩ p = true := by
      rw [Rectangle.contains_iff]; exact ⟨hx, by linarith, hy1, hy⟩
    have c3 : Rectangle.contains ⟨b.x, b.y + b.height / 2, b.width / 2, b.height / 2⟩ p = false :=
      Rectangle.contains_false _ _ (by rintro ⟨h1, h2, h3, h4⟩; linarith)
    have c4 : Rectangle.contains ⟨b.x + b.width / 2, b.y + b.height / 2, b.width / 2, b.height / 2⟩ p
        = false :=
      Rectangle.contains_false _ _ (by rintro ⟨h1, h2, h3, h4⟩; linarith)
    refine ⟨by simp [List.countP_cons, c1, c2, c3, c4], ?_⟩
    have e1 : QuadtreeNode.insert 1
        (QuadtreeNode.make ⟨b.x, b.y, b.width / 2, b.height / 2⟩ cap) p
        = some (QuadtreeNode.make ⟨b.x, b.y, b.width / 2, b.height / 2⟩ cap, false) := by
      rw [QuadtreeNode.insert_one, QuadtreeNode.make, QuadtreeNode.insertStep_leaf_cnot c1]
    have e2 : QuadtreeNode.insert 1
        (QuadtreeNode.make ⟨b.x + b.width / 2, b.y, b.width / 2, b.height / 2⟩ cap) p
        = some (QuadtreeNode.undivided ⟨b.x + b.width / 2, b.y, b.width / 2, b.height / 2⟩ cap [p],
            true) := by
      rw [QuadtreeNode.insert_one, QuadtreeNode.make,
        QuadtreeNode.insertStep_leaf_spare c2 hlen]
      rfl
    refine ⟨QuadtreeNode.make ⟨b.x, b.y, b.width / 2, b.height / 2⟩ cap,
      QuadtreeNode.undivided ⟨b.x + b.width / 2, b.y, b.width / 2, b.height / 2⟩ cap [p],
      QuadtreeNode.make ⟨b.x, b.y + b.height / 2, b.width / 2, b.height / 2⟩ cap,
      QuadtreeNode.make ⟨b.x + b.width / 2, b.y + b.height / 2, b.width / 2, b.height / 2⟩ cap,
      true, ?_, rfl, by simp [QuadtreeNode.make, QuadtreeNode.points]⟩
    simp only [QuadtreeNode.insertToChildrenF, e1, e2]
  · have c1 : Rectangle.contains ⟨b.x, b.y, b.width / 2, b.height / 2⟩ p = false :=
      Rectangle.contains_false _ _ (by rintro ⟨h1, h2, h3, h4⟩; linarith)
    have c2 : Rectangle.contains ⟨b.x + b.width / 2, b.y, b.width / 2, b.height / 2⟩ p = false :=
      Rectangle.contains_false _ _ (by rintro ⟨h1, h2, h3, h4⟩; linarith)
    have c3 : Rectangle.contains ⟨b.x, b.y + b.height / 2, b.width / 2, b.height / 2⟩ p = false :=
      Rectangle.contains_false _ _ (by rintro ⟨h1, h2, h3, h4⟩; linarith)
    have c4 : Rectangle.contains ⟨b.x + b.width / 2, b.y + b.height / 2, b.width / 2, b.height / 2⟩ p
        = true := by
      rw [Rectangle.contains_iff]; exact ⟨hx, by linarith, hy, by linarith⟩
    refine ⟨by simp [List.countP_cons, c1, c2, c3, c4], ?_⟩
    have e1 : QuadtreeNode.insert 1
        (QuadtreeNode.make ⟨b.x, b.y, b.width / 2, b.height / 2⟩ cap) p
        = some (QuadtreeNode.make ⟨b.x, b.y, b.width / 2, b.height / 2⟩ cap, false) := by
      rw [QuadtreeNode.insert_one, QuadtreeNode.make, QuadtreeNode.insertStep_leaf_cnot c1]
    have e2 : QuadtreeNode.insert 1
        (QuadtreeNode.make ⟨b.x + b.width / 2, b.y, b.width / 2, b.height / 2⟩ cap) p
        = some (QuadtreeNode.make ⟨b.x + b.width / 2, b.y, b.width / 2, b.height / 2⟩ cap, false) := by
      rw [QuadtreeNode.insert_one, QuadtreeNode.make, QuadtreeNode.insertStep_leaf_cnot c2]
    have e3 : QuadtreeNode.insert 1
        (QuadtreeNode.make ⟨b.x, b.y + b.height / 2, b.width / 2, b.height / 2⟩ cap) p
        = some (QuadtreeNode.make ⟨b.x, b.y + b.height / 2, b.width / 2, b.height / 2⟩ cap, false) := by
      rw [QuadtreeNode.insert_one, QuadtreeNode.make, QuadtreeNode.insertStep_leaf_cnot c3]
    have e4 : QuadtreeNode.insert 1
        (QuadtreeNode.make ⟨b.x + b.width / 2, b.y + b.height / 2, b.width / 2, b.height / 2⟩ cap) p
        = some (QuadtreeNode.undivided
            ⟨b.x + b.width / 2, b.y + b.height / 2, b.width / 2, b.height / 2⟩ cap [p], true) := by
      rw [QuadtreeNode.insert_one, QuadtreeNode.make,
        QuadtreeNode.insertStep_leaf_spare c4 hlen]
      rfl
    refine ⟨QuadtreeNode.make ⟨b.x, b.y, b.width / 2, b.height / 2⟩ cap,
      QuadtreeNode.make ⟨b.x + b.width / 2, b.y, b.width / 2, b.height / 2⟩ cap,
      QuadtreeNode.make ⟨b.x, b.y + b.height / 2, b.width / 2, b.height / 2⟩ cap,
      QuadtreeNode.undivided ⟨b.x + b.width / 2, b.y + b.height / 2, b.width / 2, b.height / 2⟩
        cap [p],
      true, ?_, rfl, by simp [QuadtreeNode.make, QuadtreeNode.points]⟩
    simp only [QuadtreeNode.insertToChildrenF, e1, e2, e3, e4]

/-- C6 (amended): a point lying exactly on an internal split line belongs
to the child on the *higher*-coordinate side of that axis, because the
half-open child boundaries exclude their upper edges — the split coordinate
starts the next child's interval.  (The original claim said the
lower/left child; `subdivide_split_line_counterexample` refutes that.) -/
theorem split_line_goes_to_higher_side (b : Rectangle) (p : Point)
    (hb : b.contains p = true) :
    (p.x = b.x + b.width / 2 →
      (b.subdivideBounds.1.contains p = false ∧ b.subdivideBounds.2.2.1.contains p = false) ∧
      (b.subdivideBounds.2.1.contains p = true ∨ b.subdivideBounds.2.2.2.contains p = true)) ∧
    (p.y = b.y + b.height / 2 →
      (b.subdivideBounds.1.contains p = false ∧ b.subdivideBounds.2.1.contains p = false) ∧
      (b.subdivideBounds.2.2.1.contains p = true ∨ b.subdivideBounds.2.2.2.contains p = true)) := by
  obtain ⟨hx1, hx2, hy1, hy2⟩ := (Rectangle.contains_iff b p).mp hb
  simp only [Rectangle.subdivideBounds]
  constructor
  · intro hsx
    refine ⟨⟨Rectangle.contains_false _ _ (by rintro ⟨h1, h2, h3, h4⟩; linarith),
      Rectangle.contains_false _ _ (by rintro ⟨h1, h2, h3, h4⟩; linarith)⟩, ?_⟩
    rcases lt_or_le p.y (b.y + b.height / 2) with hy | hy
    · exact Or.inl (by rw [Rectangle.contains_iff]; exact ⟨le_of_eq hsx.symm, by linarith, hy1, hy⟩)
    · exact Or.inr (by rw [Rectangle.contains_iff]; exact ⟨le_of_eq hsx.symm, by linarith, hy, by linarith⟩)
  · intro hsy
    refine ⟨⟨Rectangle.contains_false _ _ (by rintro ⟨h1, h2, h3, h4⟩; linarith),
      Rectangle.contains_false _ _ (by rintro ⟨h1, h2, h3, h4⟩; linarith)⟩, ?_⟩
    rcases lt_or_le p.x (b.x + b.width / 2) with hx | hx
    · exact Or.inl (by rw [Rectangle.contains_iff]; exact ⟨hx1, hx, le_of_eq hsy.symm, by linarith⟩)
    · exact Or.inr (by rw [Rectangle.contains_iff]; exact ⟨hx, by linarith, le_of_eq hsy.symm, by linarith⟩)

/-- C6 counterexample: the point `(1, 0)` lies exactly on the vertical
split line of the boundary `(0, 0, 2, 2)`.  The claim says it belongs to
the child on the lower-coordinate side (northwest / southwest); in fact
neither lower-x child contains it, the northeast child does, and insertion
into a divided node stores it in the northeast child. -/
theorem subdivide_split_line_counterexample :
    Rectangle.contains ⟨0, 0, 2, 2⟩ ⟨1, 0, none⟩ = true ∧
    (Rectangle.subdivideBounds ⟨0, 0, 2, 2⟩).1.contains ⟨1, 0, none⟩ = false ∧
    (Rectangle.subdivideBounds ⟨0, 0, 2, 2⟩).2.2.1.contains ⟨1, 0, none⟩ = false ∧
    (Rectangle.subdivideBounds ⟨0, 0, 2, 2⟩).2.1.contains ⟨1, 0, none⟩ = true ∧
    QuadtreeNode.insert 2 (QuadtreeNode.divided ⟨0, 0, 2, 2⟩ 1 []
        (QuadtreeNode.make ⟨0, 0, 1, 1⟩ 1) (QuadtreeNode.make ⟨1, 0, 1, 1⟩ 1)
        (QuadtreeNode.make ⟨0, 1, 1, 1⟩ 1) (QuadtreeNode.make ⟨1, 1, 1, 1⟩ 1)) ⟨1, 0, none⟩
      = some (QuadtreeNode.divided ⟨0, 0, 2, 2⟩ 1 []
        (QuadtreeNode.make ⟨0, 0, 1, 1⟩ 1) (QuadtreeNode.undivided ⟨1, 0, 1, 1⟩ 1 [⟨1, 0, none⟩])
        (QuadtreeNode.make ⟨0, 1, 1, 1⟩ 1) (QuadtreeNode.make ⟨1, 1, 1, 1⟩ 1), true) :=
  ⟨by decide, by decide, by decide, by decide, by decide⟩

theorem split_line_goes_to_higher_side_witness :
    Rectangle.contains ⟨0, 0, 2, 2⟩ ⟨1, 0, none⟩ = true ∧
    ((Rectangle.subdivideBounds ⟨0, 0, 2, 2⟩).1.contains ⟨1, 0, none⟩ = false ∧
      (Rectangle.subdivideBounds ⟨0, 0, 2, 2⟩).2.2.1.contains ⟨1, 0, none⟩ = false) ∧
    ((Rectangle.subdivideBounds ⟨0, 0, 2, 2⟩).2.1.contains ⟨1, 0, none⟩ = true ∨
      (Rectangle.subdivideBounds ⟨0, 0, 2, 2⟩).2.2.2.contains ⟨1, 0, none⟩ = true) := by
  refine ⟨by decide, ?_⟩
  have h := (split_line_goes_to_higher_side ⟨0, 0, 2, 2⟩ ⟨1, 0, none⟩ (by decide)).1 (by decide)
  exact h

/-- C7: inserting a point outside a node's boundary returns `False` and
leaves the tree completely unchanged; in particular the number of stored
points is the same before and after. -/
theorem insert_outside_boundary_rejected (fuel : ℕ) (n : QuadtreeNode) (p : Point)
    (n' : QuadtreeNode) (r : Bool)
    (hc : n.boundary.contains p = false)
    (hins : QuadtreeNode.insert fuel n p = some (n', r)) :
    n' = n ∧ r = false ∧ n'.toList.length = n.toList.length := by
  obtain ⟨h1, h2⟩ := QuadtreeNode.insert_not_contains hins hc
  exact ⟨h1, h2, by rw [h1]⟩

theorem insert_outside_boundary_rejected_witness :
    Rectangle.contains ⟨0, 0, 1, 1⟩ ⟨5, 5, none⟩ = false ∧
    QuadtreeNode.insert 1 (QuadtreeNode.make ⟨0, 0, 1, 1⟩ 4) ⟨5, 5, none⟩
      = some (QuadtreeNode.make ⟨0, 0, 1, 1⟩ 4, false) ∧
    (QuadtreeNode.make ⟨0, 0, 1, 1⟩ 4 = QuadtreeNode.make ⟨0, 0, 1, 1⟩ 4 ∧ false = false ∧
      (QuadtreeNode.make ⟨0, 0, 1, 1⟩ 4).toList.length
        = (QuadtreeNode.make ⟨0, 0, 1, 1⟩ 4).toList.length) :=
  ⟨by decide, by decide,
   insert_outside_boundary_rejected 1 (QuadtreeNode.make ⟨0, 0, 1, 1⟩ 4) ⟨5, 5, none⟩
     (QuadtreeNode.make ⟨0, 0, 1, 1⟩ 4) false (by decide) (by decide)⟩

/-- C8: after any sequence of insertions into a freshly constructed tree,
every node is either an undivided leaf holding at most `capacity` resident
points or a divided node with an empty resident list — never both divided
and populated, and no leaf over capacity. -/
theorem capacity_invariant_holds (fuel : ℕ) (b : Rectangle) (cap : ℕ) (ps : List Point)
    (t : QuadtreeNode) (hbuild : QuadtreeNode.buildList fuel (QuadtreeNode.make b cap) ps = some t) :
    QuadtreeNode.CapInv t :=
  QuadtreeNode.buildList_CapInv hbuild

/-- C9: the source constructors perform no validation at all.  Evaluating
the embedded `Quadtree.__init__` at an invalid input — negative width and
zero capacity — produces a tree rather than failing with a
precondition-violation error, contradicting the spec's fail-fast
requirement (the claim is right about the intended design; the code lacks
the check). -/
theorem construction_performs_no_validation :
    Quadtree.init ⟨0, 0, -5, 3⟩ 0
      = ⟨⟨0, 0, -5, 3⟩, QuadtreeNode.undivided ⟨0, 0, -5, 3⟩ 0 []⟩ := rfl

/-- C10: searching is read-only.  In the state-threaded embeddings of
`QuadtreeNode.query`, `QuadtreeNode._find_nearest` and
`Quadtree.find_nearest` — where every method returns the node state it
finished with — the returned tree is identical to the input tree; only the
accumulator changes. -/
theorem search_is_read_only (t : Quadtree) (n : QuadtreeNode) (q : Point) (acc : BestFound) :
    (n.query_st q acc).1 = n ∧ (n.find_nearest_st q acc).1 = n ∧
    (t.find_nearest_st q).1 = t := by
  refine ⟨?_, ?_, ?_⟩
  · rw [QuadtreeNode.query_st_eq]
  · rw [QuadtreeNode.find_nearest_st_eq]
  · rw [Quadtree.find_nearest_st_spec]

/-- C1: for every point set inserted into a freshly constructed quadtree
and every query point, `Quadtree.find_nearest` returns the minimum squared
distance over all stored points exactly as computed by the
`find_closest_brute_force` oracle, and (when any point is stored) a stored
point realising that distance.  Distances are compared squared; the
source's final `math.sqrt` is strictly monotone, so the true distances
agree exactly as well. -/
theorem find_nearest_matches_brute_force (fuel : ℕ) (b : Rectangle) (cap : ℕ)
    (ps : List Point) (t : QuadtreeNode) (q : Point)
    (hbuild : QuadtreeNode.buildList fuel (QuadtreeNode.make b cap) ps = some t) :
    (Quadtree.find_nearest ⟨b, t⟩ q).2 = (find_closest_brute_force q t.toList).2 ∧
    (t.toList ≠ [] → ∃ p, p ∈ t.toList ∧ (Quadtree.find_nearest ⟨b, t⟩ q).1 = some p ∧
      ((distSq p q : ℚ) : WithTop ℚ) = (find_closest_brute_force q t.toList).2) := by
  have hPts := QuadtreeNode.buildList_PtsInv hbuild
  have hspec := QuadtreeNode.find_nearest_spec q t hPts initBest [] (AccOk_init q [])
  have htop : initBest.dist_sq = (⊤ : WithTop ℚ) := rfl
  have hdist : (Quadtree.find_nearest ⟨b, t⟩ q).2 = (t.find_nearest q initBest).dist_sq := rfl
  have hpoint : (Quadtree.find_nearest ⟨b, t⟩ q).1 = (t.find_nearest q initBest).point := rfl
  have hbf := find_closest_brute_force_dist q t.toList
  have hmin : (t.find_nearest q initBest).dist_sq = minDistSq q t.toList := by
    rw [hspec.1, htop]
    exact min_eq_right le_top
  constructor
  · rw [hdist, hbf, hmin]
  · intro hne
    have hlt : (t.find_nearest q initBest).dist_sq < ⊤ := by
      rw [hmin]; exact minDistSq_lt_top hne
    rcases hspec.2 with ⟨hd, _⟩ | ⟨p, hp1, hp2, hp3⟩
    · rw [hd] at hlt; exact absurd hlt (lt_irrefl _)
    · refine ⟨p, by simpa using hp2, by rw [hpoint]; exact hp1, ?_⟩
      rw [hbf, ← hp3]
      exact hmin

/-- C3: the two search variants are equivalent.  On any tree built by
insertions, `query` (closest-bounding-box-first) and `_find_nearest`
(containing-child-first), each run from the fresh accumulator, reach the
same final best squared distance, and that distance equals the exhaustive
scan's minimum over all stored points. -/
theorem search_variants_equivalent (fuel : ℕ) (b : Rectangle) (cap : ℕ) (ps : List Point)
    (t : QuadtreeNode) (q : Point)
    (hbuild : QuadtreeNode.buildList fuel (QuadtreeNode.make b cap) ps = some t) :
    (t.query q initBest).dist_sq = (t.find_nearest q initBest).dist_sq ∧
    (t.query q initBest).dist_sq = (find_closest_brute_force q t.toList).2 := by
  have hPts := QuadtreeNode.buildList_PtsInv hbuild
  have h1 := (QuadtreeNode.query_spec q t hPts initBest [] (AccOk_init q [])).1
  have h2 := (QuadtreeNode.find_nearest_spec q t hPts initBest [] (AccOk_init q [])).1
  have hbf := find_closest_brute_force_dist q t.toList
  have htop : initBest.dist_sq = (⊤ : WithTop ℚ) := rfl
  refine ⟨by rw [h1, h2], ?_⟩
  rw [h1, hbf, htop]
  exact min_eq_right le_top

/-- C5 (amended): on every reachable tree, a terminating insertion of a
point inside the boundary reports success — `insert` never returns `False`
for in-boundary points.  However, termination itself is *not* guaranteed:
with more than `capacity` coincident points the recursion descends forever
(`insert_always_succeeds_counterexample`), so the claim as stated —
"insert(p) terminates and returns true" — is false. -/
theorem insert_inside_never_reports_failure (fuel fuel2 : ℕ) (b : Rectangle) (cap : ℕ)
    (ps : List Point) (t t' : QuadtreeNode) (p : Point) (r : Bool)
    (hbuild : QuadtreeNode.buildList fuel (QuadtreeNode.make b cap) ps = some t)
    (hc : t.boundary.contains p = true)
    (hins : QuadtreeNode.insert fuel2 t p = some (t', r)) :
    r = true :=
  (QuadtreeNode.insert_wf fuel2 hins (QuadtreeNode.buildList_WFGeom hbuild)).2.2 hc

/-- C5 counterexample: the reachable state below (fresh capacity-1 tree
after inserting the origin once) diverges when the origin is inserted a
second time: no recursion budget suffices, modelling non-termination of the
Python `insert`.  So "insert(p) terminates and returns true for every
in-boundary p and reachable state" is false. -/
theorem insert_always_succeeds_counterexample :
    QuadtreeNode.buildList 2 (QuadtreeNode.make ⟨0, 0, 1, 1⟩ 1) [⟨0, 0, none⟩]
      = some (QuadtreeNode.undivided ⟨0, 0, 1, 1⟩ 1 [⟨0, 0, none⟩]) ∧
    Rectangle.contains ⟨0, 0, 1, 1⟩ ⟨0, 0, none⟩ = true ∧
    (∀ fuel : ℕ, QuadtreeNode.insert fuel
      (QuadtreeNode.undivided ⟨0, 0, 1, 1⟩ 1 [⟨0, 0, none⟩]) ⟨0, 0, none⟩ = none) :=
  ⟨by decide, by decide, fun fuel => QuadtreeNode.insert_dup_diverges fuel 1 1 one_pos one_pos⟩

/-- A concrete boundary, point list and the tree that inserting the list
into a fresh capacity-1 tree produces; used by the witnesses below. -/
def sampleBoundary : Rectangle := ⟨0, 0, 8, 8⟩

def samplePoints : List Point := [⟨1, 1, none⟩, ⟨6, 2, none⟩, ⟨3, 7, none⟩]

def sampleTree : QuadtreeNode :=
  QuadtreeNode.divided ⟨0, 0, 8, 8⟩ 1 []
    (QuadtreeNode.undivided ⟨0, 0, 4, 4⟩ 1 [⟨1, 1, none⟩])
    (QuadtreeNode.undivided ⟨4, 0, 4, 4⟩ 1 [⟨6, 2, none⟩])
    (QuadtreeNode.undivided ⟨0, 4, 4, 4⟩ 1 [⟨3, 7, none⟩])
    (QuadtreeNode.undivided ⟨4, 4, 4, 4⟩ 1 [])

theorem find_nearest_matches_brute_force_witness :
    (Quadtree.find_nearest ⟨sampleBoundary, sampleTree⟩ ⟨5, 5, none⟩).2
      = (find_closest_brute_force ⟨5, 5, none⟩ sampleTree.toList).2 ∧
    (∃ p, p ∈ sampleTree.toList ∧
      (Quadtree.find_nearest ⟨sampleBoundary, sampleTree⟩ ⟨5, 5, none⟩).1 = some p ∧
      ((distSq p ⟨5, 5, none⟩ : ℚ) : WithTop ℚ)
        = (find_closest_brute_force ⟨5, 5, none⟩ sampleTree.toList).2) :=
  ⟨(find_nearest_matches_brute_force 10 sampleBoundary 1 samplePoints sampleTree ⟨5, 5, none⟩
      (by decide)).1,
   (find_nearest_matches_brute_force 10 sampleBoundary 1 samplePoints sampleTree ⟨5, 5, none⟩
      (by decide)).2 (by decide)⟩

theorem search_variants_equivalent_witness :
    (sampleTree.query ⟨5, 5, none⟩ initBest).dist_sq
      = (sampleTree.find_nearest ⟨5, 5, none⟩ initBest).dist_sq ∧
    (sampleTree.query ⟨5, 5, none⟩ initBest).dist_sq
      = (find_closest_brute_force ⟨5, 5, none⟩ sampleTree.toList).2 :=
  search_variants_equivalent 10 sampleBoundary 1 samplePoints sampleTree ⟨5, 5, none⟩
    (by decide)

theorem subdivide_exactly_one_child_witness :
    List.countP (fun rect => rect.contains ⟨1, 1, none⟩)
      [(Rectangle.subdivideBounds ⟨0, 0, 8, 8⟩).1, (Rectangle.subdivideBounds ⟨0, 0, 8, 8⟩).2.1,
       (Rectangle.subdivideBounds ⟨0, 0, 8, 8⟩).2.2.1,
       (Rectangle.subdivideBounds ⟨0, 0, 8, 8⟩).2.2.2] = 1 ∧
    (∃ nw' ne' sw' se' r,
      QuadtreeNode.insertToChildrenF (QuadtreeNode.insert 1)
        (QuadtreeNode.make (Rectangle.subdivideBounds ⟨0, 0, 8, 8⟩).1 1)
        (QuadtreeNode.make (Rectangle.subdivideBounds ⟨0, 0, 8, 8⟩).2.1 1)
        (QuadtreeNode.make (Rectangle.subdivideBounds ⟨0, 0, 8, 8⟩).2.2.1 1)
        (QuadtreeNode.make (Rectangle.subdivideBounds ⟨0, 0, 8, 8⟩).2.2.2 1) ⟨1, 1, none⟩
        = some (nw', ne', sw', se', r) ∧ r = true ∧
      nw'.points ++ ne'.points ++ sw'.points ++ se'.points = [⟨1, 1, none⟩]) :=
  subdivide_exactly_one_child ⟨0, 0, 8, 8⟩ ⟨1, 1, none⟩ 1 (by decide) (by decide)

theorem insert_inside_never_reports_failure_witness :
    Rectangle.contains ⟨0, 0, 8, 8⟩ ⟨5, 6, none⟩ = true ∧ true = true :=
  ⟨by decide,
   insert_inside_never_reports_failure 10 2 sampleBoundary 1 samplePoints sampleTree
     (QuadtreeNode.divided ⟨0, 0, 8, 8⟩ 1 []
       (QuadtreeNode.undivided ⟨0, 0, 4, 4⟩ 1 [⟨1, 1, none⟩])
       (QuadtreeNode.undivided ⟨4, 0, 4, 4⟩ 1 [⟨6, 2, none⟩])
       (QuadtreeNode.undivided ⟨0, 4, 4, 4⟩ 1 [⟨3, 7, none⟩])
       (QuadtreeNode.undivided ⟨4, 4, 4, 4⟩ 1 [⟨5, 6, none⟩]))
     ⟨5, 6, none⟩ true (by decide) (by decide) (by decide)⟩

theorem capacity_invariant_holds_witness : QuadtreeNode.CapInv sampleTree :=
  capacity_invariant_holds 10 sampleBoundary 1 samplePoints sampleTree (by decide)
